import Mathlib

/-!
Verification of the eNMS workflow-engine specification against the source.

This file shallowly embeds the parts of the eNMS code base that the
frozen claims speak about:

* `Workflow.job` (eNMS/services/workflow/workflow.py, lines 111-191):
  the graph walker with its CPython `heapq` priority queue, target
  propagation, run counting, skip handling and state writes.
* `AbstractBase.__lt__` (eNMS/models/base.py, lines 17-18): always `True`,
  which is the tie-breaking comparison the heap sees.
* `Service.neighbors` (eNMS/models/automation.py, lines 196-199).
* `Task.next_run_time`, `Task.time_before_next_run`, `Task.schedule` and
  `Task._catch_request_exceptions` (eNMS/models/automation.py, 518-551).
* `Environment.init_encryption`, `encrypt_password`, `get_password`
  (eNMS/environment.py, 62-101).

Machine integers are modelled as `Nat`/`Int`; Python's float key
`1 / priority` is modelled as an exact rational (`ℚ`), with the
`ZeroDivisionError` on `priority = 0` made explicit.  Device-name sets
are `Finset String`.  The external `Runner` (eNMS/runner.py, not part of
the sources) is an oracle parameter; fields the engine never inspects
(such as `payload`) are carried opaquely.
-/

namespace ENMS

/-! ## Small list lemmas used by the heap proofs -/

section ListLemmas

variable {α : Type}

theorem getD_set_eq_of_lt (l : List α) (i : Nat) (a d : α) (h : i < l.length) :
    (l.set i a).getD i d = a := by
  induction l generalizing i with
  | nil => simp at h
  | cons x xs ih =>
    cases i with
    | zero => rfl
    | succ j => simpa using ih j (by simpa using h)

theorem getD_set_ne (l : List α) (i j : Nat) (a d : α) (h : i ≠ j) :
    (l.set i a).getD j d = l.getD j d := by
  induction l generalizing i j with
  | nil => simp [List.set]
  | cons x xs ih =>
    cases i with
    | zero =>
      cases j with
      | zero => exact absurd rfl h
      | succ k => rfl
    | succ i2 =>
      cases j with
      | zero => rfl
      | succ k => simpa using ih i2 k (fun hc => h (by simp [hc]))

theorem getD_append_lt (l : List α) (x d : α) (i : Nat) (h : i < l.length) :
    (l ++ [x]).getD i d = l.getD i d := by
  induction l generalizing i with
  | nil => simp at h
  | cons y ys ih =>
    cases i with
    | zero => rfl
    | succ j => simpa using ih j (by simpa using h)

theorem getD_append_len (l : List α) (x d : α) :
    (l ++ [x]).getD l.length d = x := by
  induction l with
  | nil => rfl
  | cons y ys ih => simp

theorem getD_mem (l : List α) (i : Nat) (d : α) (h : i < l.length) :
    l.getD i d ∈ l := by
  induction l generalizing i with
  | nil => simp at h
  | cons x xs ih =>
    cases i with
    | zero => simp
    | succ j =>
      have := ih j (by simpa using h)
      exact List.mem_cons_of_mem _ this

theorem mem_of_mem_set (l : List α) (i : Nat) (a y : α) (h : y ∈ l.set i a) :
    y ∈ l ∨ y = a := by
  induction l generalizing i with
  | nil => simp [List.set] at h
  | cons x xs ih =>
    cases i with
    | zero =>
      rcases (List.mem_cons).1 h with h1 | h1
      · exact Or.inr h1
      · exact Or.inl (List.mem_cons_of_mem _ h1)
    | succ j =>
      rcases (List.mem_cons).1 h with h1 | h1
      · exact Or.inl (h1 ▸ List.mem_cons_self _ _)
      · rcases ih j h1 with h2 | h2
        · exact Or.inl (List.mem_cons_of_mem _ h2)
        · exact Or.inr h2

theorem getD_dropLast (l : List α) (i : Nat) (d : α) (h : i + 1 < l.length) :
    l.dropLast.getD i d = l.getD i d := by
  induction l generalizing i with
  | nil => simp at h
  | cons x xs ih =>
    cases xs with
    | nil => simp at h
    | cons y ys =>
      cases i with
      | zero => rfl
      | succ j =>
        have := ih j (by simpa using h)
        simpa using this

theorem dropLast_sublist_mem (l : List α) (y : α) (h : y ∈ l.dropLast) : y ∈ l := by
  induction l with
  | nil => simp at h
  | cons x xs ih =>
    cases xs with
    | nil => simp at h
    | cons z zs =>
      rcases (List.mem_cons).1 h with h1 | h1
      · exact h1 ▸ List.mem_cons_self _ _
      · exact List.mem_cons_of_mem _ (ih h1)

theorem getLastD_mem (l : List α) (d : α) (h : l ≠ []) : l.getLastD d ∈ l := by
  induction l with
  | nil => exact absurd rfl h
  | cons x xs ih =>
    cases xs with
    | nil => simp
    | cons y ys =>
      have := ih (by simp)
      simpa using Or.inr (by simpa using this)

end ListLemmas

/-! Reduction lemmas for the `Except` monad used by the embedding. -/

@[simp]
theorem exceptOkBind {ε α β : Type} (a : α) (f : α → Except ε β) :
    (Except.ok a >>= f) = f a := rfl

@[simp]
theorem exceptErrBind {ε α β : Type} (e : ε) (f : α → Except ε β) :
    ((Except.error e : Except ε α) >>= f) = Except.error e := rfl

/-! ## Data model

`Service` carries exactly the columns `Workflow.job` reads.  `priority`
is an `Int` (SQL `Integer`, default 1); `maximum_runs` likewise defaults
to 1 and is only compared against a running count, so it is kept as a
`Nat`.  `skip` is the per-workflow dict consulted by
`service.skip.get(self.name, False)`. -/

structure Service where
  id : Nat
  name : String
  scoped_name : String
  priority : Int
  maximum_runs : Nat
  skip : List (String × Bool)
  skip_value : String
deriving DecidableEq, Repr, Inhabited

/-- Dictionary lookup `service.skip.get(workflow_name, False)`. -/
def skipGet (s : Service) (wfName : String) : Bool :=
  (((s.skip.find? (fun kv => kv.1 == wfName)).map (fun kv => kv.2)).getD false)

/-- One `WorkflowEdge` row: subtype is `"success"` or `"failure"`; the
destination Service object is embedded, mirroring the ORM relationship. -/
structure Edge where
  id : Nat
  subtype : String
  source_id : Nat
  destination : Service
  workflow_name : String
deriving DecidableEq, Repr

/-! ## CPython heapq over `(1 / priority, service)` tuples

`Workflow.job` pushes tuples `(1 / service.priority, service)` onto a
`heapq` list.  Python compares these tuples lexicographically; the
second components compare with `AbstractBase.__lt__`, which always
returns `True`.  The sift routines below are the exact CPython
`heapq._siftdown` / `heapq._siftup` algorithms. -/

/-- Model of `AbstractBase.__lt__` (base.py line 17-18): always true. -/
def abstractBaseLT (_a _b : Service) : Bool := true

structure Entry where
  key : ℚ
  service : Service
deriving DecidableEq, Repr, Inhabited

/-- Python tuple comparison `(k1, s1) < (k2, s2)`:
`k1 < k2`, or `k1 == k2` followed by `s1 < s2` (always true). -/
def entryLT (a b : Entry) : Bool :=
  decide (a.key < b.key) || (decide (a.key = b.key) && abstractBaseLT a.service b.service)

theorem entryLT_eq_true_iff (a b : Entry) : entryLT a b = true ↔ a.key ≤ b.key := by
  simp [entryLT, abstractBaseLT, le_iff_lt_or_eq]

theorem entryLT_eq_false_iff (a b : Entry) : entryLT a b = false ↔ b.key < a.key := by
  rw [← Bool.not_eq_true, entryLT_eq_true_iff, not_le]

/-- Parent index in the implicit binary tree: `(pos - 1) >> 1`. -/
def parentIdx (i : Nat) : Nat := (i - 1) / 2

theorem parentIdx_lt (i : Nat) (h : 0 < i) : parentIdx i < i := by
  unfold parentIdx; omega

/-- Fuel-indexed driver of CPython `heapq._siftdown`; the recursion climbs
from `pos` to `parentIdx pos < pos`, so fuel `pos` always suffices and the
fuel-out branch is never taken from `siftdownAux`. -/
def siftdownFuel : Nat → List Entry → Entry → Nat → Nat → List Entry
  | 0, heap, newitem, _, pos => heap.set pos newitem
  | fuel + 1, heap, newitem, startpos, pos =>
    if startpos < pos then
      if entryLT newitem (heap.getD (parentIdx pos) default) then
        siftdownFuel fuel (heap.set pos (heap.getD (parentIdx pos) default)) newitem
          startpos (parentIdx pos)
      else
        heap.set pos newitem
    else
      heap.set pos newitem

theorem siftdownFuel_zero (heap : List Entry) (newitem : Entry) (startpos pos : Nat) :
    siftdownFuel 0 heap newitem startpos pos = heap.set pos newitem := rfl

theorem siftdownFuel_succ (fuel : Nat) (heap : List Entry) (newitem : Entry)
    (startpos pos : Nat) :
    siftdownFuel (fuel + 1) heap newitem startpos pos =
      if startpos < pos then
        if entryLT newitem (heap.getD (parentIdx pos) default) then
          siftdownFuel fuel (heap.set pos (heap.getD (parentIdx pos) default)) newitem
            startpos (parentIdx pos)
        else
          heap.set pos newitem
      else
        heap.set pos newitem := rfl

theorem siftdownFuel_congr (newitem : Entry) (startpos : Nat) :
    ∀ f1 f2 (heap : List Entry) (pos : Nat), pos ≤ f1 → pos ≤ f2 →
      siftdownFuel f1 heap newitem startpos pos = siftdownFuel f2 heap newitem startpos pos := by
  intro f1
  induction f1 with
  | zero =>
    intro f2 heap pos h1 h2
    have hp : pos = 0 := by omega
    subst hp
    cases f2 with
    | zero => rfl
    | succ g => simp [siftdownFuel]
  | succ f IHf =>
    intro f2 heap pos h1 h2
    cases f2 with
    | zero =>
      have hp : pos = 0 := by omega
      subst hp
      simp [siftdownFuel]
    | succ g =>
      rw [siftdownFuel_succ, siftdownFuel_succ]
      by_cases hlt : startpos < pos
      · simp only [if_pos hlt]
        by_cases hswap : entryLT newitem (heap.getD (parentIdx pos) default) = true
        · simp only [if_pos hswap]
          have hpar := parentIdx_lt pos (by omega)
          exact IHf g _ _ (by omega) (by omega)
        · simp only [if_neg hswap]
      · simp only [if_neg hlt]

/-- CPython `heapq._siftdown(heap, startpos, pos)` with `newitem` already
read out of `heap[pos]` (the slot is dead until the final write). -/
def siftdownAux (heap : List Entry) (newitem : Entry) (startpos pos : Nat) : List Entry :=
  siftdownFuel pos heap newitem startpos pos

/-- Recursive characterization of `siftdownAux`: exactly the CPython loop. -/
theorem siftdownAux_eq (heap : List Entry) (newitem : Entry) (startpos pos : Nat) :
    siftdownAux heap newitem startpos pos =
      if startpos < pos then
        if entryLT newitem (heap.getD (parentIdx pos) default) then
          siftdownAux (heap.set pos (heap.getD (parentIdx pos) default)) newitem
            startpos (parentIdx pos)
        else
          heap.set pos newitem
      else
        heap.set pos newitem := by
  unfold siftdownAux
  by_cases hlt : startpos < pos
  · rw [if_pos hlt]
    obtain ⟨k, hk⟩ : ∃ k, pos = k + 1 := ⟨pos - 1, by omega⟩
    subst hk
    rw [siftdownFuel_succ]
    simp only [if_pos hlt]
    by_cases hswap : entryLT newitem (heap.getD (parentIdx (k + 1)) default) = true
    · simp only [if_pos hswap]
      have hpar := parentIdx_lt (k + 1) (by omega)
      exact siftdownFuel_congr newitem startpos k _ _ _ (by omega) (le_refl _)
    · simp only [if_neg hswap]
  · rw [if_neg hlt]
    cases pos with
    | zero => rfl
    | succ k =>
      rw [siftdownFuel_succ]
      simp only [if_neg hlt]

/-- Call-graph induction principle for `siftdownAux`. -/
theorem siftdownAux_induct (motive : List Entry → Entry → Nat → Nat → Prop)
    (case1 : ∀ heap newitem startpos pos, startpos < pos →
      entryLT newitem (heap.getD (parentIdx pos) default) = true →
      motive (heap.set pos (heap.getD (parentIdx pos) default)) newitem
        startpos (parentIdx pos) →
      motive heap newitem startpos pos)
    (case2 : ∀ heap newitem startpos pos, startpos < pos →
      ¬ entryLT newitem (heap.getD (parentIdx pos) default) = true →
      motive heap newitem startpos pos)
    (case3 : ∀ heap newitem startpos pos, ¬ startpos < pos →
      motive heap newitem startpos pos)
    (heap : List Entry) (newitem : Entry) (startpos pos : Nat) :
    motive heap newitem startpos pos := by
  induction pos using Nat.strong_induction_on generalizing heap with
  | _ pos IH =>
    by_cases hlt : startpos < pos
    · by_cases hswap : entryLT newitem (heap.getD (parentIdx pos) default) = true
      · exact case1 heap newitem startpos pos hlt hswap
          (IH (parentIdx pos) (parentIdx_lt pos (by omega)) _)
      · exact case2 heap newitem startpos pos hlt hswap
    · exact case3 heap newitem startpos pos hlt

/-- CPython `heapq.heappush`: append then sift down from the last slot. -/
def heappush (heap : List Entry) (item : Entry) : List Entry :=
  siftdownAux (heap ++ [item]) item 0 heap.length

/-- The child CPython `heapq._siftup` moves up: the right child exactly
when it exists and `not heap[childpos] < heap[rightpos]`. -/
def chooseChild (heap : List Entry) (pos : Nat) : Nat :=
  if 2 * pos + 2 < heap.length ∧
      entryLT (heap.getD (2 * pos + 1) default) (heap.getD (2 * pos + 2) default) = false
  then 2 * pos + 2
  else 2 * pos + 1

theorem chooseChild_gt (h : List Entry) (pos : Nat) : pos < chooseChild h pos := by
  unfold chooseChild; split <;> omega

theorem chooseChild_lt (h : List Entry) (pos : Nat) (hc : 2 * pos + 1 < h.length) :
    chooseChild h pos < h.length := by
  unfold chooseChild; split
  · omega
  · exact hc

/-- Fuel-indexed driver of CPython `heapq._siftup`; the recursion descends
from `pos` to `chooseChild heap pos > pos` below `heap.length`, so fuel
`heap.length - pos` always suffices. -/
def siftupFuel : Nat → List Entry → Entry → Nat → Nat → List Entry
  | 0, heap, newitem, startpos, pos => siftdownAux (heap.set pos newitem) newitem startpos pos
  | fuel + 1, heap, newitem, startpos, pos =>
    if 2 * pos + 1 < heap.length then
      siftupFuel fuel (heap.set pos (heap.getD (chooseChild heap pos) default)) newitem
        startpos (chooseChild heap pos)
    else
      siftdownAux (heap.set pos newitem) newitem startpos pos

theorem siftupFuel_zero (heap : List Entry) (newitem : Entry) (startpos pos : Nat) :
    siftupFuel 0 heap newitem startpos pos =
      siftdownAux (heap.set pos newitem) newitem startpos pos := rfl

theorem siftupFuel_succ (fuel : Nat) (heap : List Entry) (newitem : Entry)
    (startpos pos : Nat) :
    siftupFuel (fuel + 1) heap newitem startpos pos =
      if 2 * pos + 1 < heap.length then
        siftupFuel fuel (heap.set pos (heap.getD (chooseChild heap pos) default)) newitem
          startpos (chooseChild heap pos)
      else
        siftdownAux (heap.set pos newitem) newitem startpos pos := rfl

theorem siftupFuel_congr (newitem : Entry) (startpos : Nat) :
    ∀ f1 f2 (heap : List Entry) (pos : Nat),
      heap.length ≤ pos + f1 → heap.length ≤ pos + f2 →
      siftupFuel f1 heap newitem startpos pos = siftupFuel f2 heap newitem startpos pos := by
  intro f1
  induction f1 with
  | zero =>
    intro f2 heap pos h1 h2
    cases f2 with
    | zero => rfl
    | succ g =>
      rw [siftupFuel_zero, siftupFuel_succ,
        if_neg (by omega : ¬ 2 * pos + 1 < heap.length)]
  | succ f IHf =>
    intro f2 heap pos h1 h2
    cases f2 with
    | zero =>
      rw [siftupFuel_zero, siftupFuel_succ,
        if_neg (by omega : ¬ 2 * pos + 1 < heap.length)]
    | succ g =>
      rw [siftupFuel_succ, siftupFuel_succ]
      by_cases hlt : 2 * pos + 1 < heap.length
      · simp only [if_pos hlt]
        have hgt := chooseChild_gt heap pos
        apply IHf g
        · rw [List.length_set]
          omega
        · rw [List.length_set]
          omega
      · simp only [if_neg hlt]

/-- CPython `heapq._siftup(heap, pos)`: bubble the smaller child up to the
leaf level, then `_siftdown` the new item from the leaf. -/
def siftupAux (heap : List Entry) (newitem : Entry) (startpos pos : Nat) : List Entry :=
  siftupFuel (heap.length - pos) heap newitem startpos pos

/-- Recursive characterization of `siftupAux`: exactly the CPython loop. -/
theorem siftupAux_eq (heap : List Entry) (newitem : Entry) (startpos pos : Nat) :
    siftupAux heap newitem startpos pos =
      if 2 * pos + 1 < heap.length then
        siftupAux (heap.set pos (heap.getD (chooseChild heap pos) default)) newitem
          startpos (chooseChild heap pos)
      else
        siftdownAux (heap.set pos newitem) newitem startpos pos := by
  unfold siftupAux
  by_cases hlt : 2 * pos + 1 < heap.length
  · rw [if_pos hlt]
    obtain ⟨k, hk⟩ : ∃ k, heap.length - pos = k + 1 := ⟨heap.length - pos - 1, by omega⟩
    rw [hk, siftupFuel_succ]
    simp only [if_pos hlt]
    have hgt := chooseChild_gt heap pos
    apply siftupFuel_congr
    · rw [List.length_set]
      omega
    · rw [List.length_set]
      omega
  · rw [if_neg hlt]
    cases hk : heap.length - pos with
    | zero => rfl
    | succ k =>
      rw [siftupFuel_succ]
      simp only [if_neg hlt]

/-- Call-graph induction principle for `siftupAux`. -/
theorem siftupAux_induct (motive : List Entry → Entry → Nat → Nat → Prop)
    (case1 : ∀ heap newitem startpos pos, 2 * pos + 1 < heap.length →
      motive (heap.set pos (heap.getD (chooseChild heap pos) default)) newitem
        startpos (chooseChild heap pos) →
      motive heap newitem startpos pos)
    (case2 : ∀ heap newitem startpos pos, ¬ 2 * pos + 1 < heap.length →
      motive heap newitem startpos pos)
    (heap : List Entry) (newitem : Entry) (startpos pos : Nat) :
    motive heap newitem startpos pos := by
  have H : ∀ n (heap : List Entry) (pos : Nat), heap.length ≤ pos + n →
      motive heap newitem startpos pos := by
    intro n
    induction n with
    | zero =>
      intro heap pos hle
      exact case2 heap newitem startpos pos (by omega)
    | succ n IHn =>
      intro heap pos hle
      by_cases hlt : 2 * pos + 1 < heap.length
      · refine case1 heap newitem startpos pos hlt (IHn _ _ ?_)
        have h1 := chooseChild_gt heap pos
        rw [List.length_set]
        omega
      · exact case2 heap newitem startpos pos hlt
  exact H heap.length heap pos (by omega)

/-- CPython `heapq.heappop`: remove the last element; if the heap is still
non-empty, place it at the root and sift up; return the old root. -/
def heappop (heap : List Entry) : Option (Entry × List Entry) :=
  if heap.isEmpty then none
  else
    let lastelt := heap.getLastD default
    let rest := heap.dropLast
    if rest.isEmpty then some (lastelt, [])
    else some (rest.getD 0 default, siftupAux (rest.set 0 lastelt) lastelt 0 0)

/-! ## Heap correctness

The comparison `entryLT` is the non-strict order on keys (because the
service tie-break is constantly true), and CPython's sift routines keep
the array a binary min-heap for it: every parent key is `≤` its
children's keys, so the root is always a minimal-key entry. -/

def keyAt (h : List Entry) (i : Nat) : ℚ := (h.getD i default).key

def heapInv (h : List Entry) : Prop :=
  ∀ i, 0 < i → i < h.length → keyAt h (parentIdx i) ≤ keyAt h i


theorem parentIdx_eq_iff (i p : Nat) (h : 0 < i) :
    parentIdx i = p ↔ i = 2 * p + 1 ∨ i = 2 * p + 2 := by
  unfold parentIdx; omega

theorem keyAt_set_eq (h : List Entry) (pos : Nat) (x : Entry) (hlt : pos < h.length) :
    keyAt (h.set pos x) pos = x.key := by
  unfold keyAt
  rw [getD_set_eq_of_lt _ _ _ _ hlt]

theorem keyAt_set_ne (h : List Entry) (pos j : Nat) (x : Entry) (hne : pos ≠ j) :
    keyAt (h.set pos x) j = keyAt h j := by
  unfold keyAt
  rw [getD_set_ne _ _ _ _ _ hne]

theorem siftdownAux_length (h : List Entry) (x : Entry) (s pos : Nat) :
    (siftdownAux h x s pos).length = h.length := by
  induction h, x, s, pos using siftdownAux_induct with
  | case1 heap newitem startpos pos hlt hswap ih =>
    rw [siftdownAux_eq, if_pos hlt, if_pos hswap]
    simpa using ih
  | case2 heap newitem startpos pos hlt hswap =>
    rw [siftdownAux_eq, if_pos hlt, if_neg hswap]
    simp
  | case3 heap newitem startpos pos hlt =>
    rw [siftdownAux_eq, if_neg hlt]
    simp

theorem siftupAux_length (h : List Entry) (x : Entry) (s pos : Nat) :
    (siftupAux h x s pos).length = h.length := by
  induction h, x, s, pos using siftupAux_induct with
  | case1 heap newitem startpos pos hlt ih =>
    rw [siftupAux_eq, if_pos hlt]
    simpa using ih
  | case2 heap newitem startpos pos hlt =>
    rw [siftupAux_eq, if_neg hlt]
    simp [siftdownAux_length]

theorem heappush_length (h : List Entry) (x : Entry) :
    (heappush h x).length = h.length + 1 := by
  simp [heappush, siftdownAux_length]

theorem mem_siftdownAux (h : List Entry) (x : Entry) (s pos : Nat) :
    ∀ y, pos < h.length → y ∈ siftdownAux h x s pos → y ∈ h ∨ y = x := by
  induction h, x, s, pos using siftdownAux_induct with
  | case1 heap newitem startpos pos hlt hswap ih =>
    intro y hpos hy
    rw [siftdownAux_eq, if_pos hlt, if_pos hswap] at hy
    have hpar : parentIdx pos < heap.length := lt_trans (parentIdx_lt pos (by omega)) hpos
    have hlen2 : parentIdx pos < (heap.set pos (heap.getD (parentIdx pos) default)).length := by
      rw [List.length_set]
      exact hpar
    rcases ih y hlen2 hy with h1 | h1
    · rcases mem_of_mem_set _ _ _ _ h1 with h2 | h2
      · exact Or.inl h2
      · exact Or.inl (h2 ▸ getD_mem _ _ _ hpar)
    · exact Or.inr h1
  | case2 heap newitem startpos pos hlt hswap =>
    intro y hpos hy
    rw [siftdownAux_eq, if_pos hlt, if_neg hswap] at hy
    exact mem_of_mem_set _ _ _ _ hy
  | case3 heap newitem startpos pos hlt =>
    intro y hpos hy
    rw [siftdownAux_eq, if_neg hlt] at hy
    exact mem_of_mem_set _ _ _ _ hy

theorem mem_siftupAux (h : List Entry) (x : Entry) (s pos : Nat) :
    ∀ y, pos < h.length → y ∈ siftupAux h x s pos → y ∈ h ∨ y = x := by
  induction h, x, s, pos using siftupAux_induct with
  | case1 heap newitem startpos pos hlt ih =>
    intro y hpos hy
    rw [siftupAux_eq, if_pos hlt] at hy
    have hclt : chooseChild heap pos < heap.length := chooseChild_lt _ _ hlt
    have hlen2 :
        chooseChild heap pos <
          (heap.set pos (heap.getD (chooseChild heap pos) default)).length := by
      rw [List.length_set]
      exact hclt
    rcases ih y hlen2 hy with h1 | h1
    · rcases mem_of_mem_set _ _ _ _ h1 with h2 | h2
      · exact Or.inl h2
      · exact Or.inl (h2 ▸ getD_mem _ _ _ hclt)
    · exact Or.inr h1
  | case2 heap newitem startpos pos hlt =>
    intro y hpos hy
    rw [siftupAux_eq, if_neg hlt] at hy
    have hlen2 : pos < (heap.set pos newitem).length := by
      rw [List.length_set]
      exact hpos
    have := mem_siftdownAux _ _ _ _ _ hlen2 hy
    rcases this with h1 | h1
    · rcases mem_of_mem_set _ _ _ _ h1 with h2 | h2
      · exact Or.inl h2
      · exact Or.inr h2
    · exact Or.inr h1

theorem mem_heappush (h : List Entry) (x y : Entry) (hy : y ∈ heappush h x) :
    y ∈ h ∨ y = x := by
  have := mem_siftdownAux (h ++ [x]) x 0 h.length y (by simp) hy
  rcases this with h1 | h1
  · rcases (List.mem_append).1 h1 with h2 | h2
    · exact Or.inl h2
    · exact Or.inr (by simpa using h2)
  · exact Or.inr h1

theorem heappop_mem (h : List Entry) (e : Entry) (rest : List Entry)
    (hp : heappop h = some (e, rest)) : e ∈ h ∧ ∀ y ∈ rest, y ∈ h := by
  unfold heappop at hp
  by_cases hne : h.isEmpty
  · simp [hne] at hp
  · rw [if_neg hne] at hp
    have hnil : h ≠ [] := by simpa [List.isEmpty_iff] using hne
    by_cases hre : h.dropLast.isEmpty
    · rw [if_pos hre] at hp
      injection hp with hp1
      injection hp1 with hpe hpr
      constructor
      · exact hpe ▸ getLastD_mem h default hnil
      · intro y hy
        rw [← hpr] at hy
        simp at hy
    · rw [if_neg hre] at hp
      injection hp with hp1
      injection hp1 with hpe hpr
      have hdl : 0 < h.dropLast.length := by
        cases hq : h.dropLast with
        | nil => rw [hq] at hre; simp at hre
        | cons a l => simp [hq]
      constructor
      · have : h.dropLast.getD 0 default ∈ h.dropLast := getD_mem _ _ _ hdl
        exact hpe ▸ dropLast_sublist_mem _ _ this
      · intro y hy
        rw [← hpr] at hy
        have hlast : h.getLastD default ∈ h := getLastD_mem h default hnil
        have hmem := mem_siftupAux _ _ _ _ _ (by rw [List.length_set]; exact hdl) hy
        rcases hmem with h1 | h1
        · rcases mem_of_mem_set _ _ _ _ h1 with h2 | h2
          · exact dropLast_sublist_mem _ _ h2
          · exact h2 ▸ hlast
        · exact h1 ▸ hlast

/-- Writing `x` into slot `pos` preserves the heap shape provided the
untouched pairs were ordered, `x` fits under the parent of `pos`, and the
children of `pos` dominate `x`. -/
theorem heapInv_set_of (heap : List Entry) (x : Entry) (pos : Nat)
    (hlen : pos < heap.length)
    (Hp : 0 < pos → keyAt heap (parentIdx pos) ≤ x.key)
    (H1 : ∀ i, 0 < i → i < heap.length → i ≠ pos → parentIdx i ≠ pos →
      keyAt heap (parentIdx i) ≤ keyAt heap i)
    (H3 : ∀ i, 0 < i → i < heap.length → parentIdx i = pos → x.key ≤ keyAt heap i) :
    heapInv (heap.set pos x) := by
  intro i hi0 hilen
  rw [List.length_set] at hilen
  by_cases hip : i = pos
  · subst hip
    have hpp : parentIdx i ≠ i := Nat.ne_of_lt (parentIdx_lt i hi0)
    rw [keyAt_set_ne _ _ _ _ (fun hh => hpp hh.symm), keyAt_set_eq _ _ _ hlen]
    exact Hp hi0
  · by_cases hpi : parentIdx i = pos
    · rw [hpi, keyAt_set_eq _ _ _ hlen, keyAt_set_ne _ _ _ _ (fun hh => hip hh.symm)]
      exact H3 i hi0 hilen hpi
    · rw [keyAt_set_ne _ _ _ _ (fun hh => hpi hh.symm),
        keyAt_set_ne _ _ _ _ (fun hh => hip hh.symm)]
      exact H1 i hi0 hilen hip hpi

/-- Core invariant preservation for CPython `_siftdown` called with
`startpos = 0`: if all parent/child pairs not involving `pos` are
ordered, the children of `pos` are dominated by its parent, and the
children of `pos` dominate `newitem`, the result is a heap. -/
theorem siftdownAux_heapInv :
    ∀ pos (heap : List Entry) (x : Entry), pos < heap.length →
    (∀ i, 0 < i → i < heap.length → i ≠ pos → parentIdx i ≠ pos →
      keyAt heap (parentIdx i) ≤ keyAt heap i) →
    (∀ i, 0 < i → i < heap.length → parentIdx i = pos → 0 < pos →
      keyAt heap (parentIdx pos) ≤ keyAt heap i) →
    (∀ i, 0 < i → i < heap.length → parentIdx i = pos → x.key ≤ keyAt heap i) →
    heapInv (siftdownAux heap x 0 pos) := by
  intro pos
  induction pos using Nat.strong_induction_on with
  | _ pos IH =>
    intro heap x hlen H1 H2 H3
    by_cases hpos : 0 < pos
    · rw [siftdownAux_eq, if_pos hpos]
      have hpplt : parentIdx pos < pos := parentIdx_lt pos hpos
      have hpplen : parentIdx pos < heap.length := lt_trans hpplt hlen
      by_cases hswap : entryLT x (heap.getD (parentIdx pos) default) = true
      · rw [if_pos hswap]
        have hxk : x.key ≤ keyAt heap (parentIdx pos) :=
          (entryLT_eq_true_iff _ _).1 hswap
        apply IH (parentIdx pos) hpplt
        · simpa using hpplen
        · -- pairs not involving the new hole
          intro i hi0 hilen hne hpne
          rw [List.length_set] at hilen
          by_cases hip : i = pos
          · exact absurd (hip ▸ rfl : parentIdx i = parentIdx pos) hpne
          · by_cases hpi : parentIdx i = pos
            · rw [hpi, keyAt_set_eq _ _ _ hlen,
                keyAt_set_ne _ _ _ _ (fun hh => hip hh.symm)]
              exact H2 i hi0 hilen hpi hpos
            · rw [keyAt_set_ne _ _ _ _ (fun hh => hpi hh.symm),
                keyAt_set_ne _ _ _ _ (fun hh => hip hh.symm)]
              exact H1 i hi0 hilen hip hpi
        · -- children of the new hole dominated by its parent
          intro i hi0 hilen hpi hpp0
          rw [List.length_set] at hilen
          have hgplt : parentIdx (parentIdx pos) < parentIdx pos := parentIdx_lt _ hpp0
          have hgpne : parentIdx (parentIdx pos) ≠ pos := by omega
          rw [keyAt_set_ne _ _ _ _ (fun hh => hgpne hh.symm)]
          have hstep : keyAt heap (parentIdx (parentIdx pos)) ≤ keyAt heap (parentIdx pos) :=
            H1 (parentIdx pos) hpp0 hpplen (by omega) hgpne
          by_cases hip : i = pos
          · rw [hip, keyAt_set_eq _ _ _ hlen]
            exact hstep
          · rw [keyAt_set_ne _ _ _ _ (fun hh => hip hh.symm)]
            have : keyAt heap (parentIdx pos) ≤ keyAt heap i := by
              have hpine : parentIdx i ≠ pos := by omega
              have := H1 i hi0 hilen hip hpine
              rw [hpi] at this
              exact this
            exact le_trans hstep this
        · -- children of the new hole dominate the sinking item
          intro i hi0 hilen hpi
          rw [List.length_set] at hilen
          by_cases hip : i = pos
          · rw [hip, keyAt_set_eq _ _ _ hlen]
            exact hxk
          · rw [keyAt_set_ne _ _ _ _ (fun hh => hip hh.symm)]
            have hpine : parentIdx i ≠ pos := by
              have := parentIdx_lt pos hpos
              omega
            have := H1 i hi0 hilen hip hpine
            rw [hpi] at this
            exact le_trans hxk this
      · rw [if_neg hswap]
        have hpk : keyAt heap (parentIdx pos) ≤ x.key := by
          have := (entryLT_eq_false_iff x (heap.getD (parentIdx pos) default)).1
            (by simpa using hswap)
          exact le_of_lt this
        exact heapInv_set_of heap x pos hlen (fun _ => hpk) H1 H3
    · rw [siftdownAux_eq, if_neg hpos]
      exact heapInv_set_of heap x pos hlen (fun hc => absurd hc hpos) H1 H3

theorem heappush_heapInv (h : List Entry) (x : Entry) (hinv : heapInv h) :
    heapInv (heappush h x) := by
  unfold heappush
  apply siftdownAux_heapInv h.length (h ++ [x]) x (by simp)
  · intro i hi0 hilen hne hpne
    have hi : i < h.length := by
      rw [List.length_append] at hilen
      simp at hilen
      omega
    have hp : parentIdx i < h.length := lt_trans (parentIdx_lt i hi0) hi
    unfold keyAt
    rw [getD_append_lt _ _ _ _ hi, getD_append_lt _ _ _ _ hp]
    exact hinv i hi0 hi
  · intro i hi0 hilen hpi _
    exfalso
    rw [parentIdx_eq_iff i h.length hi0] at hpi
    rw [List.length_append] at hilen
    simp at hilen
    omega
  · intro i hi0 hilen hpi
    exfalso
    rw [parentIdx_eq_iff i h.length hi0] at hpi
    rw [List.length_append] at hilen
    simp at hilen
    omega

theorem chooseChild_cases (heap : List Entry) (pos : Nat) :
    chooseChild heap pos = 2 * pos + 1 ∨ chooseChild heap pos = 2 * pos + 2 := by
  unfold chooseChild
  split
  · exact Or.inr rfl
  · exact Or.inl rfl

theorem chooseChild_parent (heap : List Entry) (pos : Nat) :
    parentIdx (chooseChild heap pos) = pos := by
  have := chooseChild_cases heap pos
  have hg := chooseChild_gt heap pos
  rw [parentIdx_eq_iff _ _ (by omega)]
  exact this

/-- The child CPython `_siftup` promotes has the minimal key among the
children of `pos`. -/
theorem chooseChild_min (heap : List Entry) (pos : Nat) :
    ∀ j, 0 < j → j < heap.length → parentIdx j = pos →
      keyAt heap (chooseChild heap pos) ≤ keyAt heap j := by
  intro j hj0 hjlen hpj
  rw [parentIdx_eq_iff j pos hj0] at hpj
  unfold chooseChild
  by_cases hcond : 2 * pos + 2 < heap.length ∧
      entryLT (heap.getD (2 * pos + 1) default) (heap.getD (2 * pos + 2) default) = false
  · rw [if_pos hcond]
    have hrl : keyAt heap (2 * pos + 2) < keyAt heap (2 * pos + 1) :=
      (entryLT_eq_false_iff _ _).1 hcond.2
    rcases hpj with hj | hj
    · rw [hj]
      exact le_of_lt hrl
    · rw [hj]
  · rw [if_neg hcond]
    rcases hpj with hj | hj
    · rw [hj]
    · subst hj
      have hcond2 :
          entryLT (heap.getD (2 * pos + 1) default) (heap.getD (2 * pos + 2) default) = true := by
        by_cases hcc :
            entryLT (heap.getD (2 * pos + 1) default) (heap.getD (2 * pos + 2) default) = true
        · exact hcc
        · exact absurd ⟨hjlen, by simpa using hcc⟩ hcond
      exact (entryLT_eq_true_iff _ _).1 hcond2

/-- Invariant preservation for CPython `_siftup` called with
`startpos = 0`: given that all pairs not involving the hole `pos` are
ordered and the parent of `pos` dominates the children of `pos`, the
result is a heap. -/
theorem siftupAux_heapInv (heap : List Entry) (x : Entry) (s pos : Nat) :
    s = 0 → pos < heap.length →
    (∀ i, 0 < i → i < heap.length → i ≠ pos → parentIdx i ≠ pos →
      keyAt heap (parentIdx i) ≤ keyAt heap i) →
    (∀ i, 0 < i → i < heap.length → parentIdx i = pos → 0 < pos →
      keyAt heap (parentIdx pos) ≤ keyAt heap i) →
    heapInv (siftupAux heap x s pos) := by
  induction heap, x, s, pos using siftupAux_induct with
  | case2 heap newitem startpos pos hnlt =>
    intro hs hlen H1 H2
    rw [siftupAux_eq, if_neg hnlt]
    rw [hs]
    apply siftdownAux_heapInv pos (heap.set pos newitem) newitem
      (by rw [List.length_set]; exact hlen)
    · intro i hi0 hilen hne hpne
      rw [List.length_set] at hilen
      rw [keyAt_set_ne _ _ _ _ (fun hh => hpne hh.symm),
        keyAt_set_ne _ _ _ _ (fun hh => hne hh.symm)]
      exact H1 i hi0 hilen hne hpne
    · intro i hi0 hilen hpi _
      exfalso
      rw [List.length_set] at hilen
      rw [parentIdx_eq_iff i pos hi0] at hpi
      omega
    · intro i hi0 hilen hpi
      exfalso
      rw [List.length_set] at hilen
      rw [parentIdx_eq_iff i pos hi0] at hpi
      omega
  | case1 heap newitem startpos pos hlt ih =>
    intro hs hlen H1 H2
    rw [siftupAux_eq, if_pos hlt]
    have hclt : chooseChild heap pos < heap.length := chooseChild_lt _ _ hlt
    have hcgt : pos < chooseChild heap pos := chooseChild_gt _ _
    have hcpar : parentIdx (chooseChild heap pos) = pos := chooseChild_parent _ _
    have hckey :
        keyAt (heap.set pos (heap.getD (chooseChild heap pos) default)) pos =
          keyAt heap (chooseChild heap pos) :=
      keyAt_set_eq _ _ _ hlen
    apply ih hs (by rw [List.length_set]; exact hclt)
    · intro i hi0 hilen hne hpne
      rw [List.length_set] at hilen
      by_cases hip : i = pos
      · -- the pair (parent pos, pos): the promoted child fits under it
        subst hip
        have hpplt : parentIdx i < i := parentIdx_lt i hi0
        rw [keyAt_set_ne _ _ _ _ (fun hh => (Nat.ne_of_lt hpplt) hh.symm), hckey]
        exact H2 (chooseChild heap i) (by omega) hclt hcpar hi0
      · by_cases hpi : parentIdx i = pos
        · -- sibling of the promoted child
          rw [hpi, hckey, keyAt_set_ne _ _ _ _ (fun hh => hip hh.symm)]
          exact chooseChild_min heap pos i hi0 hilen hpi
        · rw [keyAt_set_ne _ _ _ _ (fun hh => hpi hh.symm),
            keyAt_set_ne _ _ _ _ (fun hh => hip hh.symm)]
          exact H1 i hi0 hilen hip hpi
    · intro i hi0 hilen hpi _
      rw [List.length_set] at hilen
      have hipos : i ≠ pos := by
        rw [parentIdx_eq_iff i (chooseChild heap pos) hi0] at hpi
        omega
      rw [hcpar, hckey, keyAt_set_ne _ _ _ _ (fun hh => hipos hh.symm)]
      have hpine : parentIdx i ≠ pos := by
        rw [hpi]
        omega
      have := H1 i hi0 hilen hipos hpine
      rw [hpi] at this
      exact this

theorem heappop_heapInv (h : List Entry) (e : Entry) (rest : List Entry)
    (hp : heappop h = some (e, rest)) (hinv : heapInv h) : heapInv rest := by
  unfold heappop at hp
  by_cases hne : h.isEmpty
  · simp [hne] at hp
  · rw [if_neg hne] at hp
    by_cases hre : h.dropLast.isEmpty
    · rw [if_pos hre] at hp
      injection hp with hp1
      injection hp1 with hpe hpr
      rw [← hpr]
      intro i hi0 hilen
      simp at hilen
    · rw [if_neg hre] at hp
      injection hp with hp1
      injection hp1 with hpe hpr
      rw [← hpr]
      have hdl : 0 < h.dropLast.length := by
        cases hq : h.dropLast with
        | nil => rw [hq] at hre; simp at hre
        | cons a l => simp [hq]
      have hlen2 : 1 < h.length := by
        rw [List.length_dropLast] at hdl
        omega
      apply siftupAux_heapInv _ _ _ 0 rfl (by rw [List.length_set]; exact hdl)
      · intro i hi0 hilen hne2 hpne
        rw [List.length_set] at hilen
        rw [keyAt_set_ne _ _ _ _ (fun hh => hpne hh.symm),
          keyAt_set_ne _ _ _ _ (fun hh => hne2 hh.symm)]
        have hil : i + 1 < h.length := by
          rw [List.length_dropLast] at hilen
          omega
        have hpl : parentIdx i + 1 < h.length := by
          have := parentIdx_lt i hi0
          omega
        unfold keyAt
        rw [getD_dropLast _ _ _ hil, getD_dropLast _ _ _ hpl]
        exact hinv i hi0 (by omega)
      · intro i hi0 hilen hpi hpos0
        exact absurd hpos0 (lt_irrefl 0)

theorem heapInv_root_le (h : List Entry) (hinv : heapInv h) :
    ∀ i, i < h.length → keyAt h 0 ≤ keyAt h i := by
  intro i
  induction i using Nat.strong_induction_on with
  | _ i IH =>
    intro hilen
    by_cases hi0 : 0 < i
    · have hplt : parentIdx i < i := parentIdx_lt i hi0
      exact le_trans (IH (parentIdx i) hplt (lt_trans hplt hilen)) (hinv i hi0 hilen)
    · have hz : i = 0 := by omega
      rw [hz]

theorem heappop_root_key (h : List Entry) (e : Entry) (rest : List Entry)
    (hp : heappop h = some (e, rest)) : e.key = keyAt h 0 := by
  unfold heappop at hp
  by_cases hne : h.isEmpty
  · simp [hne] at hp
  · rw [if_neg hne] at hp
    by_cases hre : h.dropLast.isEmpty
    · rw [if_pos hre] at hp
      injection hp with hp1
      injection hp1 with hpe hpr
      cases h with
      | nil => simp at hne
      | cons a t =>
        cases t with
        | nil =>
          rw [← hpe]
          rfl
        | cons b t2 => simp at hre
    · rw [if_neg hre] at hp
      injection hp with hp1
      injection hp1 with hpe hpr
      rw [← hpe]
      have hdl : 0 < h.dropLast.length := by
        cases hq : h.dropLast with
        | nil => rw [hq] at hre; simp at hre
        | cons a l => simp [hq]
      have h1 : (1 : Nat) ≤ h.length - 1 := by
        rw [List.length_dropLast] at hdl
        omega
      unfold keyAt
      rw [getD_dropLast _ _ _ (by rw [List.length_dropLast] at hdl; omega)]

/-- The popped entry has minimal key among the heap's entries. -/
theorem heappop_min (h : List Entry) (e : Entry) (rest : List Entry)
    (hp : heappop h = some (e, rest)) (hinv : heapInv h) :
    ∀ x ∈ h, e.key ≤ x.key := by
  intro x hx
  obtain ⟨i, hi, hgi⟩ := List.getElem_of_mem hx
  have hgd : h.getD i default = x := by
    rw [List.getD_eq_getElem h default hi]
    exact hgi
  have := heapInv_root_le h hinv i hi
  rw [heappop_root_key h e rest hp]
  calc keyAt h 0 ≤ keyAt h i := this
    _ = x.key := by rw [keyAt, hgd]

/-! ### The heap as `job` uses it: keys are `1 / priority` -/

inductive PyErr where
  | zeroDivision
  | keyError (key : String)
deriving DecidableEq, Repr

/-- Key construction `1 / service.priority`: raises `ZeroDivisionError`
when the priority is 0, otherwise yields the exact rational. -/
def mkEntry (s : Service) : Except PyErr Entry :=
  if s.priority = 0 then .error .zeroDivision
  else .ok ⟨1 / (s.priority : ℚ), s⟩

def keysLinked (h : List Entry) : Prop :=
  ∀ x ∈ h, x.service.priority ≠ 0 ∧ x.key = 1 / (x.service.priority : ℚ)

def heapWf (h : List Entry) : Prop := heapInv h ∧ keysLinked h

theorem mkEntry_ok (s : Service) (x : Entry) (hx : mkEntry s = .ok x) :
    x.service = s ∧ s.priority ≠ 0 ∧ x.key = 1 / (s.priority : ℚ) := by
  unfold mkEntry at hx
  by_cases hz : s.priority = 0
  · rw [if_pos hz] at hx
    exact absurd hx (by simp)
  · rw [if_neg hz] at hx
    injection hx with hx1
    rw [← hx1]
    exact ⟨rfl, hz, rfl⟩

theorem heappush_heapWf (h : List Entry) (x : Entry) (hwf : heapWf h)
    (hx : x.service.priority ≠ 0 ∧ x.key = 1 / (x.service.priority : ℚ)) :
    heapWf (heappush h x) := by
  refine ⟨heappush_heapInv h x hwf.1, ?_⟩
  intro y hy
  rcases mem_heappush h x y hy with h1 | h1
  · exact hwf.2 y h1
  · rw [h1]
    exact hx

theorem heappop_heapWf (h : List Entry) (e : Entry) (rest : List Entry)
    (hp : heappop h = some (e, rest)) (hwf : heapWf h) : heapWf rest := by
  refine ⟨heappop_heapInv h e rest hp hwf.1, ?_⟩
  intro y hy
  exact hwf.2 y ((heappop_mem h e rest hp).2 y hy)

/-- For positive priorities, a minimal `1 / priority` key is a maximal
priority: whatever entry is popped, no entry left behind it has a
strictly higher priority. -/
theorem heappop_max_priority (h : List Entry) (e : Entry) (rest : List Entry)
    (hp : heappop h = some (e, rest)) (hwf : heapWf h)
    (x : Entry) (hx : x ∈ h)
    (hpe : 1 ≤ e.service.priority) (hpx : 1 ≤ x.service.priority) :
    x.service.priority ≤ e.service.priority := by
  have hkey := heappop_min h e rest hp hwf.1 x hx
  have he : e ∈ h := (heappop_mem h e rest hp).1
  have hek := (hwf.2 e he).2
  have hxk := (hwf.2 x hx).2
  rw [hek, hxk] at hkey
  have hpe0 : (0 : ℚ) < (e.service.priority : ℚ) := by
    exact_mod_cast lt_of_lt_of_le Int.zero_lt_one hpe
  have := le_of_one_div_le_one_div hpe0 hkey
  exact_mod_cast this

/-! ## The `Workflow.job` model

Python errors the loop can actually raise are made explicit:
`1 / service.priority` raises `ZeroDivisionError` when `priority == 0`
(workflow.py lines 120 and 173), and `summary[edge_type]` raises
`KeyError` when `results` carried no `"summary"` key so that
`summary == {}` (lines 160, 166, 172, 176). -/

/-- A device collection as it appears in a summary: the Runner returns
lists, while the skip branch (line 136) stores the `targets` set, so the
dynamic value can be either.  `len` is Python `len` on the actual value. -/
inductive DevColl where
  | set (s : Finset String)
  | list (l : List String)
deriving DecidableEq

def DevColl.isEmpty : DevColl → Bool
  | .set s => decide (s = ∅)
  | .list l => l.isEmpty

/-- Python `set(...)` applied to the collection. -/
def DevColl.toDevSet : DevColl → Finset String
  | .set s => s
  | .list l => l.toFinset

def DevColl.len : DevColl → Nat
  | .set s => s.card
  | .list l => l.length

/-- A `"summary"` dict with its two buckets. -/
structure Summary where
  success : DevColl
  failure : DevColl
deriving DecidableEq

/-- What the external Runner hands back: `results["success"]` plus an
optional `"summary"` entry.  An absent Runner result (`if not results`)
is modelled by the oracle returning `none`. -/
structure RunnerResults where
  success : Bool
  summary : Option Summary
deriving DecidableEq

/-- The `results` dict `job` works with, both Runner-produced and
skip-synthesized (`{"result": "skipped", "success": ...}`). -/
structure ResultsDict where
  success : Bool
  result : Option String
  summary : Option Summary
deriving DecidableEq

/-- The keyword arguments `job` passes to `Runner(run, payload=..., **kwargs)`
(workflow.py lines 140-156).  `service` is `None` when a `"Placeholder"`
service has no substitute on the run. -/
structure RunnerCall where
  service : Option Service
  workflow_name : String
  restart_run : Option Nat
  parent : Nat
  parent_runtime : String
  workflow_run_method : String
  target_devices : Option (List String)
  parent_device : Option String
  payload : Nat
deriving DecidableEq

/-- One `run.write_state(path, value, mode)` call.  The two-argument call
on line 179 uses the default mode, `"set"`. -/
inductive WriteVal where
  | int (n : Nat)
  | str (s : String)
deriving DecidableEq, Repr

structure StateWrite where
  path : String
  value : WriteVal
  mode : String
deriving DecidableEq, Repr

def edgeKey (e : Edge) : String := "edges/" ++ toString e.id

/-- The attributes of the `run` object that `job` reads.  `stop` is read
once per loop iteration; since it is set asynchronously it is modelled as
a function of the iteration counter.  `payload` is opaque to `job`. -/
structure Run where
  run_method : String
  stop : Nat → Bool
  payload : Nat
  target_devices : List String
  start_services : List Service
  restart_run : Option Nat
  parent_runtime : String
  parent_device : Option String
  placeholder : Option Service

/-- Everything `Workflow.job(self, run, device)` closes over: the workflow
graph (`self`), the globally fetched `Start`/`End` services, the `run`
object, the optional per-device argument, and the Runner as an oracle
(indexed by the iteration at which it is consulted). -/
structure Ctx where
  wfName : String
  edges : List Edge
  startS : Service
  endS : Service
  run : Run
  device : Option String
  runner : Nat → RunnerCall → Option RunnerResults

/-- Line 122: `tracking_bfs = run.run_method == "per_service_with_workflow_targets"`. -/
def trackingBfs (run : Run) : Bool :=
  run.run_method == "per_service_with_workflow_targets"

/-- The recurring condition `tracking_bfs or device` (lines 134, 150, 171,
174, 180). -/
def inBfsOrDevice (ctx : Ctx) : Bool :=
  trackingBfs ctx.run || ctx.device.isSome

/-- Engine-local state of one `job` invocation.  `trace`, `runnerCalls`
and `time` are observability instrumentation (the dispatch sequence, the
Runner invocations, and the loop-iteration counter the `stop` flag and
the Runner oracle are indexed by); the remaining fields are the Python
locals `services` (heap), `number_of_runs`, `targets`, `visited` and the
accumulated `write_state` effects. -/
structure EngineState where
  heap : List Entry
  numberOfRuns : String → Nat
  targets : String → Finset String
  visited : List Service
  writes : List StateWrite
  trace : List (Service × Option ResultsDict)
  runnerCalls : List RunnerCall
  time : Nat

/-- Final values `job` can return (workflow.py 125, 180-189):
`bfs` is the `{"payload", "success", "summary"}` dict of the
`tracking_bfs or device` branch, `plain` the `{"payload", "success"}`
dict, and `abortedR` the `{"payload", "success": False, "result":
"Aborted"}` dict. -/
inductive JobResults where
  | bfs (payload : Nat) (success : Bool) (summarySuccess summaryFailure : Finset String)
  | plain (payload : Nat) (success : Bool)
  | abortedR (payload : Nat)
deriving DecidableEq

def JobResults.isBfs : JobResults → Bool
  | .bfs _ _ _ _ => true
  | _ => false

/-- `service.neighbors(self, "destination", edge_type)` (automation.py
196-199): outgoing edges of `s`, filtered to the given subtype and this
workflow, paired with their destination services. -/
def neighbors (ctx : Ctx) (s : Service) (subtype : String) : List (Service × Edge) :=
  (ctx.edges.filter
      (fun e => e.source_id == s.id && e.subtype == subtype &&
        e.workflow_name == ctx.wfName)).map
    (fun e => (e.destination, e))

/-- Indexing `summary[edge_type]` where `summary = results.get("summary", {})`:
raises `KeyError` on the empty dict. -/
def summaryIndex (summary : Option Summary) (edge_type : String) : Except PyErr DevColl :=
  match summary with
  | none => .error (.keyError edge_type)
  | some sm => .ok (if edge_type = "success" then sm.success else sm.failure)

def addWrite (st : EngineState) (w : StateWrite) : EngineState :=
  { st with writes := st.writes ++ [w] }

/-- The body of the loop over `service.neighbors(self, "destination",
edge_type)` for one `(successor, edge)` pair (workflow.py 171-179):
union the summary devices into the successor's targets, push the
successor, then record the edge-state write. -/
def neighborStep (ctx : Ctx) (summary : Option Summary) (edge_type : String)
    (succ : Service) (edge : Edge) (st : EngineState) : Except PyErr EngineState := do
  let st1 ←
    if inBfsOrDevice ctx then do
      let v ← summaryIndex summary edge_type
      pure { st with
        targets := Function.update st.targets succ.name
          (st.targets succ.name ∪ v.toDevSet) }
    else pure st
  let entry ← mkEntry succ
  let st2 := { st1 with heap := heappush st1.heap entry }
  if inBfsOrDevice ctx then do
    let v ← summaryIndex summary edge_type
    pure (addWrite st2 ⟨edgeKey edge, .int v.len, "increment"⟩)
  else
    pure (addWrite st2 ⟨edgeKey edge, .str "DONE", "set"⟩)

/-- Inner loop over `service.neighbors(self, "destination", edge_type)`
(workflow.py 168-179). -/
def processNeighbors (ctx : Ctx) (summary : Option Summary) (edge_type : String) :
    List (Service × Edge) → EngineState → Except PyErr EngineState
  | [], st => .ok st
  | (succ, edge) :: rest, st =>
    match neighborStep ctx summary edge_type succ edge st with
    | .error e => .error e
    | .ok st1 => processNeighbors ctx summary edge_type rest st1

/-- One pass of the `for edge_type in ("success", "failure")` loop
(workflow.py 163-179), including its two `continue` guards. -/
def processEdgeType (ctx : Ctx) (s : Service) (status : String) (summary : Option Summary)
    (edge_type : String) (st : EngineState) : Except PyErr EngineState :=
  if ¬ trackingBfs ctx.run ∧ edge_type ≠ status then .ok st
  else do
    let emptyGuard ←
      if trackingBfs ctx.run then do
        let v ← summaryIndex summary edge_type
        pure v.isEmpty
      else pure false
    if emptyGuard then .ok st
    else processNeighbors ctx summary edge_type (neighbors ctx s edge_type) st

/-- Line 159: `status = "success" if results["success"] else "failure"`. -/
def resultStatus (results : ResultsDict) : String :=
  if results.success then "success" else "failure"

/-- Lines 161-162: the per-service progress counter is written only in
the plain mode (`not tracking_bfs and not device`). -/
def progressState (ctx : Ctx) (results : ResultsDict) (st : EngineState) : EngineState :=
  if ¬ trackingBfs ctx.run ∧ ctx.device.isNone then
    addWrite st ⟨"progress/service/" ++ resultStatus results, .int 1, "increment"⟩
  else st

/-- Lines 159-179: compute `status`, write the per-service progress
counter in the plain mode, then propagate both edge types. -/
def processResults (ctx : Ctx) (s : Service) (results : ResultsDict) (st : EngineState) :
    Except PyErr EngineState := do
  let st1 ← processEdgeType ctx s (resultStatus results) results.summary "success"
    (progressState ctx results st)
  processEdgeType ctx s (resultStatus results) results.summary "failure" st1

/-- State update for the pop itself (the ghost clock advances with the
loop iteration). -/
def postPopState (st : EngineState) (rest : List Entry) : EngineState :=
  { st with heap := rest, time := st.time + 1 }

/-- Lines 129-130: `number_of_runs[service.name] += 1; visited.add(service)`. -/
def dispatchState (st : EngineState) (s : Service) : EngineState :=
  { st with
    numberOfRuns := Function.update st.numberOfRuns s.name (st.numberOfRuns s.name + 1)
    visited := st.visited ++ [s] }

/-- The skip branch's synthesized results dict (workflow.py 131-138). -/
def skipResults (ctx : Ctx) (st : EngineState) (s : Service) : ResultsDict :=
  { success := s.skip_value == "success"
    result := some "skipped"
    summary :=
      if inBfsOrDevice ctx then some ⟨.set (st.targets s.name), .list []⟩ else none }

/-- Enumeration of a Python set of device names (line 151-153 builds the
`target_devices` list from `targets[service.name]`).  Python's iteration
order is unspecified; the model fixes the lexicographic one. -/
def deviceNameList (s : Finset String) : List String :=
  s.sort (fun a b => a ≤ b)

theorem deviceNameList_toFinset (s : Finset String) :
    (deviceNameList s).toFinset = s := by
  simp [deviceNameList]

/-- The Runner keyword arguments (workflow.py 140-155). -/
def mkRunnerCall (ctx : Ctx) (st : EngineState) (s : Service) : RunnerCall :=
  { service := if s.scoped_name = "Placeholder" then ctx.run.placeholder else some s
    workflow_name := ctx.wfName
    restart_run := ctx.run.restart_run
    parent := 0
    parent_runtime := ctx.run.parent_runtime
    workflow_run_method := ctx.run.run_method
    target_devices :=
      if inBfsOrDevice ctx then some (deviceNameList (st.targets s.name)) else none
    parent_device := ctx.run.parent_device
    payload := ctx.run.payload }

/-- The loop's termination block (workflow.py 180-189). -/
def finalResults (ctx : Ctx) (st : EngineState) : JobResults :=
  if inBfsOrDevice ctx then
    let tS := st.targets ctx.startS.name
    let tE := st.targets ctx.endS.name
    .bfs ctx.run.payload (decide (tS \ tE = ∅)) tE (tS \ tE)
  else
    .plain ctx.run.payload (decide (ctx.endS ∈ st.visited))

/-- Interleaved loop/exit state. -/
inductive LoopState where
  | running (st : EngineState)
  | done (r : JobResults) (st : EngineState)

/-- Ghost observability: record a dispatch and the results dict used for
it (if any). -/
def traceState (st : EngineState) (s : Service) (r : Option ResultsDict) : EngineState :=
  { st with trace := st.trace ++ [(s, r)] }

/-- Ghost observability: record a Runner invocation. -/
def callState (st : EngineState) (call : RunnerCall) : EngineState :=
  { st with runnerCalls := st.runnerCalls ++ [call] }

/-- The `results` dict as `job` sees a non-empty Runner return value. -/
def runnerDict (r : RunnerResults) : ResultsDict :=
  { success := r.success, result := none, summary := r.summary }

/-- The guard of workflow.py line 131:
`service in (start, end) or service.skip.get(self.name, False)`. -/
def isSkipped (ctx : Ctx) (s : Service) : Prop :=
  s = ctx.startS ∨ s = ctx.endS ∨ skipGet s ctx.wfName = true

instance (ctx : Ctx) (s : Service) : Decidable (isSkipped ctx s) := by
  unfold isSkipped
  infer_instance

/-- One iteration of the `while services:` loop (workflow.py 123-179); an
empty heap transitions to the termination block. -/
def jobStep (ctx : Ctx) (st : EngineState) : Except PyErr LoopState :=
  match heappop st.heap with
  | none => .ok (.done (finalResults ctx st) st)
  | some (e, rest) =>
    if ctx.run.stop st.time then
      .ok (.done (.abortedR ctx.run.payload) st)
    else
      let s := e.service
      let st1 := postPopState st rest
      if s.maximum_runs ≤ st1.numberOfRuns s.name then
        .ok (.running st1)
      else
        let st2 := dispatchState st1 s
        if isSkipped ctx s then
          let results := skipResults ctx st2 s
          (processResults ctx s results (traceState st2 s (some results))).map .running
        else
          let call := mkRunnerCall ctx st2 s
          let st3 := callState st2 call
          match ctx.runner st.time call with
          | none => .ok (.running (traceState st3 s none))
          | some r =>
            (processResults ctx s (runnerDict r)
              (traceState st3 s (some (runnerDict r)))).map .running

def advance (ctx : Ctx) : LoopState → Except PyErr LoopState
  | .running st => jobStep ctx st
  | .done r st => .ok (.done r st)

def iterateLoop (ctx : Ctx) : Nat → LoopState → Except PyErr LoopState
  | 0, ls => .ok ls
  | n + 1, ls => do iterateLoop ctx n (← advance ctx ls)

def emptyState : EngineState :=
  { heap := [], numberOfRuns := fun _ => 0, targets := fun _ => ∅,
    visited := [], writes := [], trace := [], runnerCalls := [], time := 0 }

/-- `run.start_services or [start.id]` (workflow.py 117). -/
def seedServices (run : Run) (startS : Service) : List Service :=
  if run.start_services.isEmpty then [startS] else run.start_services

/-- `start_targets = [device] if device else run.target_devices` as the
set of device names built on line 119. -/
def startTargets (ctx : Ctx) : Finset String :=
  match ctx.device with
  | some d => {d}
  | none => ctx.run.target_devices.toFinset

/-- One step of the seeding loop (workflow.py 118-120): extend the
seed's targets, then push it (the push evaluates `1 / priority` first). -/
def seedStep (ctx : Ctx) (st : EngineState) (s : Service) : Except PyErr EngineState := do
  let st1 := { st with
    targets := Function.update st.targets s.name
      (st.targets s.name ∪ startTargets ctx) }
  let entry ← mkEntry s
  pure { st1 with heap := heappush st1.heap entry }

/-- The seeding loop (workflow.py 115-121). -/
def initState (ctx : Ctx) : Except PyErr EngineState :=
  (seedServices ctx.run ctx.startS).foldlM (seedStep ctx) emptyState

/-- `Workflow.job` end to end, run for `fuel` loop iterations: `none`
means the fuel did not cover the run, otherwise the Python return value
(or raised error) together with the final engine state. -/
def jobRun (ctx : Ctx) (fuel : Nat) : Option (Except PyErr (JobResults × EngineState)) :=
  match initState ctx with
  | .error e => some (.error e)
  | .ok st0 =>
    match iterateLoop ctx fuel (.running st0) with
    | .error e => some (.error e)
    | .ok (.done r st) => some (.ok (r, st))
    | .ok (.running _) => none

/-! Observability projections used by concrete statements. -/

def resultOf (o : Option (Except PyErr (JobResults × EngineState))) :
    Option (Except PyErr JobResults) :=
  o.map (Except.map Prod.fst)

def writesOf (o : Option (Except PyErr (JobResults × EngineState))) :
    Option (List StateWrite) :=
  match o with
  | some (.ok (_, st)) => some st.writes
  | _ => none

def traceOf (o : Option (Except PyErr (JobResults × EngineState))) :
    Option (List (Service × Option ResultsDict)) :=
  match o with
  | some (.ok (_, st)) => some st.trace
  | _ => none

def traceNamesOf (o : Option (Except PyErr (JobResults × EngineState))) :
    Option (List String) :=
  (traceOf o).map (List.map (fun p => p.1.name))

/-! ## Characterizations of the edge-propagation code -/

/-- All devices a summary can mention. -/
def summaryDevs : Option Summary → Finset String
  | none => ∅
  | some sm => sm.success.toDevSet ∪ sm.failure.toDevSet

theorem summaryIndex_subset (summary : Option Summary) (et : String) (v : DevColl)
    (hv : summaryIndex summary et = .ok v) : v.toDevSet ⊆ summaryDevs summary := by
  cases summary with
  | none => simp [summaryIndex] at hv
  | some sm =>
    simp only [summaryIndex] at hv
    injection hv with hv1
    rw [← hv1]
    by_cases het : et = "success"
    · rw [if_pos het]
      exact Finset.subset_union_left
    · rw [if_neg het]
      exact Finset.subset_union_right

theorem neighborStep_eq_bfs (ctx : Ctx) (summary : Option Summary) (et : String)
    (succ : Service) (edge : Edge) (st : EngineState) (v : DevColl) (entry : Entry)
    (hmode : inBfsOrDevice ctx = true)
    (hv : summaryIndex summary et = .ok v) (hent : mkEntry succ = .ok entry) :
    neighborStep ctx summary et succ edge st =
      .ok { st with
        targets := Function.update st.targets succ.name (st.targets succ.name ∪ v.toDevSet)
        heap := heappush st.heap entry
        writes := st.writes ++ [⟨edgeKey edge, .int v.len, "increment"⟩] } := by
  simp [neighborStep, hmode, hv, hent, addWrite]

theorem neighborStep_eq_plain (ctx : Ctx) (summary : Option Summary) (et : String)
    (succ : Service) (edge : Edge) (st : EngineState) (entry : Entry)
    (hmode : inBfsOrDevice ctx = false) (hent : mkEntry succ = .ok entry) :
    neighborStep ctx summary et succ edge st =
      .ok { st with
        heap := heappush st.heap entry
        writes := st.writes ++ [⟨edgeKey edge, .str "DONE", "set"⟩] } := by
  simp [neighborStep, hmode, hent, addWrite]

theorem neighborStep_err_sum (ctx : Ctx) (summary : Option Summary) (et : String)
    (succ : Service) (edge : Edge) (st : EngineState) (err : PyErr)
    (hmode : inBfsOrDevice ctx = true) (hv : summaryIndex summary et = .error err) :
    neighborStep ctx summary et succ edge st = .error err := by
  simp [neighborStep, hmode, hv]

theorem neighborStep_err_entry_bfs (ctx : Ctx) (summary : Option Summary) (et : String)
    (succ : Service) (edge : Edge) (st : EngineState) (v : DevColl) (err : PyErr)
    (hmode : inBfsOrDevice ctx = true)
    (hv : summaryIndex summary et = .ok v) (hent : mkEntry succ = .error err) :
    neighborStep ctx summary et succ edge st = .error err := by
  simp [neighborStep, hmode, hv, hent]

theorem neighborStep_err_entry_plain (ctx : Ctx) (summary : Option Summary) (et : String)
    (succ : Service) (edge : Edge) (st : EngineState) (err : PyErr)
    (hmode : inBfsOrDevice ctx = false) (hent : mkEntry succ = .error err) :
    neighborStep ctx summary et succ edge st = .error err := by
  simp [neighborStep, hmode, hent]

/-- Everything a successful `neighborStep` does to the engine state. -/
theorem neighborStep_ok_elim (ctx : Ctx) (summary : Option Summary) (et : String)
    (succ : Service) (edge : Edge) (st st2 : EngineState)
    (hok : neighborStep ctx summary et succ edge st = .ok st2) :
    ∃ entry, mkEntry succ = .ok entry ∧
      st2.heap = heappush st.heap entry ∧
      st2.numberOfRuns = st.numberOfRuns ∧ st2.visited = st.visited ∧
      st2.trace = st.trace ∧ st2.runnerCalls = st.runnerCalls ∧ st2.time = st.time ∧
      (∀ n, st.targets n ⊆ st2.targets n) ∧
      (∀ n, st2.targets n ⊆ st.targets n ∪ summaryDevs summary) ∧
      (∃ w, st2.writes = st.writes ++ [w]) := by
  by_cases hmode : inBfsOrDevice ctx = true
  · cases hv : summaryIndex summary et with
    | error err =>
      rw [neighborStep_err_sum ctx summary et succ edge st err hmode hv] at hok
      exact absurd hok (by simp)
    | ok v =>
      cases hent : mkEntry succ with
      | error err =>
        rw [neighborStep_err_entry_bfs ctx summary et succ edge st v err hmode hv hent] at hok
        exact absurd hok (by simp)
      | ok entry =>
        rw [neighborStep_eq_bfs ctx summary et succ edge st v entry hmode hv hent] at hok
        injection hok with hok1
        refine ⟨entry, rfl, ?_⟩
        rw [← hok1]
        refine ⟨rfl, rfl, rfl, rfl, rfl, rfl, ?_, ?_, ⟨_, rfl⟩⟩
        · intro n
          by_cases hn : n = succ.name
          · subst hn
            simp only [Function.update_same]
            exact Finset.subset_union_left
          · simp only [Function.update_noteq hn]
            exact subset_rfl
        · intro n
          by_cases hn : n = succ.name
          · subst hn
            simp only [Function.update_same]
            exact Finset.union_subset_union subset_rfl
              (summaryIndex_subset summary et v hv)
          · simp only [Function.update_noteq hn]
            exact Finset.subset_union_left
  · have hmf : inBfsOrDevice ctx = false := by simpa using hmode
    cases hent : mkEntry succ with
    | error err =>
      rw [neighborStep_err_entry_plain ctx summary et succ edge st err hmf hent] at hok
      exact absurd hok (by simp)
    | ok entry =>
      rw [neighborStep_eq_plain ctx summary et succ edge st entry hmf hent] at hok
      injection hok with hok1
      refine ⟨entry, rfl, ?_⟩
      rw [← hok1]
      exact ⟨rfl, rfl, rfl, rfl, rfl, rfl, fun n => subset_rfl,
        fun n => Finset.subset_union_left, ⟨_, rfl⟩⟩

/-- Cumulative effects of a successful `processNeighbors` pass. -/
theorem processNeighbors_facts (ctx : Ctx) (summary : Option Summary) (et : String) :
    ∀ (lst : List (Service × Edge)) (st st2 : EngineState),
      processNeighbors ctx summary et lst st = .ok st2 →
      (∀ n, st.targets n ⊆ st2.targets n) ∧
      (∀ n, st2.targets n ⊆ st.targets n ∪ summaryDevs summary) ∧
      (∀ w ∈ st.writes, w ∈ st2.writes) ∧
      st2.numberOfRuns = st.numberOfRuns ∧ st2.visited = st.visited ∧
      st2.trace = st.trace ∧ st2.runnerCalls = st.runnerCalls ∧ st2.time = st.time ∧
      (∀ x ∈ st2.heap, x ∈ st.heap ∨ ∃ p ∈ lst, x.service = p.1) := by
  intro lst
  induction lst with
  | nil =>
    intro st st2 hok
    simp only [processNeighbors] at hok
    injection hok with hok1
    rw [← hok1]
    exact ⟨fun n => subset_rfl, fun n => Finset.subset_union_left, fun w hw => hw,
      rfl, rfl, rfl, rfl, rfl, fun x hx => Or.inl hx⟩
  | cons p rest ih =>
    intro st st2 hok
    obtain ⟨succ, edge⟩ := p
    simp only [processNeighbors] at hok
    cases hstep : neighborStep ctx summary et succ edge st with
    | error err => rw [hstep] at hok; exact absurd hok (by simp)
    | ok st1 =>
      rw [hstep] at hok
      obtain ⟨entry, hent, hheap, hnor, hvis, htr, hrc, htime, hmono, hup, w, hw⟩ :=
        neighborStep_ok_elim ctx summary et succ edge st st1 hstep
      obtain ⟨hmono2, hup2, hwr2, hnor2, hvis2, htr2, hrc2, htime2, hhp2⟩ := ih st1 st2 hok
      refine ⟨fun n => subset_trans (hmono n) (hmono2 n), ?_, ?_, ?_, ?_, ?_, ?_, ?_, ?_⟩
      · intro n
        refine subset_trans (hup2 n) ?_
        intro a ha
        rcases Finset.mem_union.1 ha with h1 | h1
        · rcases Finset.mem_union.1 (hup n h1) with h2 | h2
          · exact Finset.mem_union_left _ h2
          · exact Finset.mem_union_right _ h2
        · exact Finset.mem_union_right _ h1
      · intro w2 hw2
        exact hwr2 w2 (by rw [hw]; exact List.mem_append_left _ hw2)
      · rw [hnor2, hnor]
      · rw [hvis2, hvis]
      · rw [htr2, htr]
      · rw [hrc2, hrc]
      · rw [htime2, htime]
      · intro x hx
        rcases hhp2 x hx with h1 | h1
        · rw [hheap] at h1
          rcases mem_heappush _ _ _ h1 with h2 | h2
          · exact Or.inl h2
          · refine Or.inr ⟨(succ, edge), List.mem_cons_self _ _, ?_⟩
            have := (mkEntry_ok succ entry hent).1
            rw [h2, this]
        · obtain ⟨q, hq, hxq⟩ := h1
          exact Or.inr ⟨q, List.mem_cons_of_mem _ hq, hxq⟩

theorem processNeighbors_heapWf (ctx : Ctx) (summary : Option Summary) (et : String) :
    ∀ (lst : List (Service × Edge)) (st st2 : EngineState), heapWf st.heap →
      processNeighbors ctx summary et lst st = .ok st2 → heapWf st2.heap := by
  intro lst
  induction lst with
  | nil =>
    intro st st2 hwf hok
    simp only [processNeighbors] at hok
    injection hok with h1
    rw [← h1]
    exact hwf
  | cons p rest ih =>
    intro st st2 hwf hok
    obtain ⟨succ, edge⟩ := p
    simp only [processNeighbors] at hok
    cases hstep : neighborStep ctx summary et succ edge st with
    | error err => rw [hstep] at hok; exact absurd hok (by simp)
    | ok st1 =>
      rw [hstep] at hok
      obtain ⟨entry, hent, hheap, _⟩ := neighborStep_ok_elim ctx summary et succ edge st st1 hstep
      have hkeys := mkEntry_ok succ entry hent
      have hwf1 : heapWf st1.heap := by
        rw [hheap]
        refine heappush_heapWf _ _ hwf ⟨?_, ?_⟩
        · rw [hkeys.1]; exact hkeys.2.1
        · rw [hkeys.1]; exact hkeys.2.2
      exact ih st1 st2 hwf1 hok

/-! ### `processEdgeType` characterizations -/

theorem processEdgeType_not_taken (ctx : Ctx) (s : Service) (status : String)
    (summary : Option Summary) (et : String) (st : EngineState)
    (ht : trackingBfs ctx.run = false) (hne : et ≠ status) :
    processEdgeType ctx s status summary et st = .ok st := by
  unfold processEdgeType
  rw [if_pos ⟨by simp [ht], hne⟩]

theorem processEdgeType_plain_taken (ctx : Ctx) (s : Service) (status : String)
    (summary : Option Summary) (et : String) (st : EngineState)
    (ht : trackingBfs ctx.run = false) (heq : et = status) :
    processEdgeType ctx s status summary et st =
      processNeighbors ctx summary et (neighbors ctx s et) st := by
  unfold processEdgeType
  rw [if_neg (by simp [heq])]
  simp [ht]

theorem processEdgeType_tracking_err (ctx : Ctx) (s : Service) (status : String)
    (summary : Option Summary) (et : String) (st : EngineState) (err : PyErr)
    (ht : trackingBfs ctx.run = true) (hsum : summaryIndex summary et = .error err) :
    processEdgeType ctx s status summary et st = .error err := by
  unfold processEdgeType
  rw [if_neg (by simp [ht])]
  simp [ht, hsum]

theorem processEdgeType_tracking_empty (ctx : Ctx) (s : Service) (status : String)
    (summary : Option Summary) (et : String) (st : EngineState) (v : DevColl)
    (ht : trackingBfs ctx.run = true) (hv : summaryIndex summary et = .ok v)
    (he : v.isEmpty = true) :
    processEdgeType ctx s status summary et st = .ok st := by
  unfold processEdgeType
  rw [if_neg (by simp [ht])]
  simp [ht, hv, he]

theorem processEdgeType_tracking_go (ctx : Ctx) (s : Service) (status : String)
    (summary : Option Summary) (et : String) (st : EngineState) (v : DevColl)
    (ht : trackingBfs ctx.run = true) (hv : summaryIndex summary et = .ok v)
    (he : v.isEmpty = false) :
    processEdgeType ctx s status summary et st =
      processNeighbors ctx summary et (neighbors ctx s et) st := by
  unfold processEdgeType
  rw [if_neg (by simp [ht])]
  simp [ht, hv, he]

theorem neighbors_mem (ctx : Ctx) (s : Service) (et : String) (p : Service × Edge)
    (hp : p ∈ neighbors ctx s et) : ∃ e ∈ ctx.edges, p.1 = e.destination := by
  unfold neighbors at hp
  obtain ⟨e, he, hfe⟩ := List.mem_map.1 hp
  exact ⟨e, List.mem_of_mem_filter he, by rw [← hfe]⟩

/-! ### Cumulative state facts through one dispatch's result handling -/

/-- What the edge-propagation phase can do to the state: targets only
grow, and only by devices of the processed summary; writes are
append-only; the bookkeeping fields are untouched; any new heap entry is
an edge destination. -/
structure StepFacts (ctx : Ctx) (D : Finset String) (st st2 : EngineState) : Prop where
  mono : ∀ n, st.targets n ⊆ st2.targets n
  upper : ∀ n, st2.targets n ⊆ st.targets n ∪ D
  wmono : ∀ w ∈ st.writes, w ∈ st2.writes
  nor : st2.numberOfRuns = st.numberOfRuns
  vis : st2.visited = st.visited
  tr : st2.trace = st.trace
  rc : st2.runnerCalls = st.runnerCalls
  time : st2.time = st.time
  hmem : ∀ x ∈ st2.heap, x ∈ st.heap ∨ ∃ e ∈ ctx.edges, x.service = e.destination

theorem stepFacts_id (ctx : Ctx) (D : Finset String) (st : EngineState) :
    StepFacts ctx D st st :=
  ⟨fun _ => subset_rfl, fun _ => Finset.subset_union_left, fun _ hw => hw,
    rfl, rfl, rfl, rfl, rfl, fun _ hx => Or.inl hx⟩

theorem stepFacts_trans (ctx : Ctx) (D : Finset String) (st st1 st2 : EngineState)
    (f1 : StepFacts ctx D st st1) (f2 : StepFacts ctx D st1 st2) :
    StepFacts ctx D st st2 := by
  refine ⟨fun n => subset_trans (f1.mono n) (f2.mono n), ?_,
    fun w hw => f2.wmono w (f1.wmono w hw),
    by rw [f2.nor, f1.nor], by rw [f2.vis, f1.vis], by rw [f2.tr, f1.tr],
    by rw [f2.rc, f1.rc], by rw [f2.time, f1.time], ?_⟩
  · intro n
    refine subset_trans (f2.upper n) ?_
    intro a ha
    rcases Finset.mem_union.1 ha with h1 | h1
    · rcases Finset.mem_union.1 (f1.upper n h1) with h2 | h2
      · exact Finset.mem_union_left _ h2
      · exact Finset.mem_union_right _ h2
    · exact Finset.mem_union_right _ h1
  · intro x hx
    rcases f2.hmem x hx with h1 | h1
    · exact f1.hmem x h1
    · exact Or.inr h1

theorem stepFacts_addWrite (ctx : Ctx) (D : Finset String) (st : EngineState)
    (w : StateWrite) : StepFacts ctx D st (addWrite st w) :=
  ⟨fun _ => subset_rfl, fun _ => Finset.subset_union_left,
    fun w2 hw => List.mem_append_left _ hw, rfl, rfl, rfl, rfl, rfl,
    fun _ hx => Or.inl hx⟩

theorem processNeighbors_stepFacts (ctx : Ctx) (summary : Option Summary) (et : String)
    (s : Service) (st st2 : EngineState) (D : Finset String)
    (hD : summaryDevs summary ⊆ D)
    (hok : processNeighbors ctx summary et (neighbors ctx s et) st = .ok st2) :
    StepFacts ctx D st st2 := by
  obtain ⟨hmono, hup, hwr, hnor, hvis, htr, hrc, htime, hhp⟩ :=
    processNeighbors_facts ctx summary et (neighbors ctx s et) st st2 hok
  refine ⟨hmono, ?_, hwr, hnor, hvis, htr, hrc, htime, ?_⟩
  · intro n
    exact subset_trans (hup n) (Finset.union_subset_union subset_rfl hD)
  · intro x hx
    rcases hhp x hx with h1 | h1
    · exact Or.inl h1
    · obtain ⟨p, hp, hxp⟩ := h1
      obtain ⟨e, he, hpe⟩ := neighbors_mem ctx s et p hp
      exact Or.inr ⟨e, he, by rw [hxp, hpe]⟩

theorem processEdgeType_stepFacts (ctx : Ctx) (s : Service) (status : String)
    (summary : Option Summary) (et : String) (st st2 : EngineState) (D : Finset String)
    (hD : summaryDevs summary ⊆ D)
    (hok : processEdgeType ctx s status summary et st = .ok st2) :
    StepFacts ctx D st st2 := by
  by_cases ht : trackingBfs ctx.run = true
  · cases hsum : summaryIndex summary et with
    | error err =>
      rw [processEdgeType_tracking_err ctx s status summary et st err ht hsum] at hok
      exact absurd hok (by simp)
    | ok v =>
      by_cases he : v.isEmpty = true
      · rw [processEdgeType_tracking_empty ctx s status summary et st v ht hsum he] at hok
        injection hok with h1
        rw [← h1]
        exact stepFacts_id ctx D st
      · rw [processEdgeType_tracking_go ctx s status summary et st v ht hsum
          (by simpa using he)] at hok
        exact processNeighbors_stepFacts ctx summary et s st st2 D hD hok
  · have htf : trackingBfs ctx.run = false := by simpa using ht
    by_cases heq : et = status
    · rw [processEdgeType_plain_taken ctx s status summary et st htf heq] at hok
      exact processNeighbors_stepFacts ctx summary et s st st2 D hD hok
    · rw [processEdgeType_not_taken ctx s status summary et st htf heq] at hok
      injection hok with h1
      rw [← h1]
      exact stepFacts_id ctx D st

theorem processEdgeType_heapWf (ctx : Ctx) (s : Service) (status : String)
    (summary : Option Summary) (et : String) (st st2 : EngineState)
    (hwf : heapWf st.heap)
    (hok : processEdgeType ctx s status summary et st = .ok st2) : heapWf st2.heap := by
  by_cases ht : trackingBfs ctx.run = true
  · cases hsum : summaryIndex summary et with
    | error err =>
      rw [processEdgeType_tracking_err ctx s status summary et st err ht hsum] at hok
      exact absurd hok (by simp)
    | ok v =>
      by_cases he : v.isEmpty = true
      · rw [processEdgeType_tracking_empty ctx s status summary et st v ht hsum he] at hok
        injection hok with h1
        rw [← h1]
        exact hwf
      · rw [processEdgeType_tracking_go ctx s status summary et st v ht hsum
          (by simpa using he)] at hok
        exact processNeighbors_heapWf ctx summary et _ st st2 hwf hok
  · have htf : trackingBfs ctx.run = false := by simpa using ht
    by_cases heq : et = status
    · rw [processEdgeType_plain_taken ctx s status summary et st htf heq] at hok
      exact processNeighbors_heapWf ctx summary et _ st st2 hwf hok
    · rw [processEdgeType_not_taken ctx s status summary et st htf heq] at hok
      injection hok with h1
      rw [← h1]
      exact hwf

/-- The `processResults` body as two sequenced `processEdgeType` passes
over an optional progress write. -/
theorem processResults_elim (ctx : Ctx) (s : Service) (results : ResultsDict)
    (st st2 : EngineState) (hok : processResults ctx s results st = .ok st2) :
    ∃ stA,
      processEdgeType ctx s (resultStatus results) results.summary "success"
        (progressState ctx results st) = .ok stA ∧
      processEdgeType ctx s (resultStatus results) results.summary "failure" stA =
        .ok st2 := by
  unfold processResults at hok
  cases hA : processEdgeType ctx s (resultStatus results) results.summary "success"
      (progressState ctx results st) with
  | error err =>
    rw [hA] at hok
    simp at hok
  | ok stA =>
    rw [hA] at hok
    simp at hok
    exact ⟨stA, rfl, hok⟩

theorem progressState_stepFacts (ctx : Ctx) (results : ResultsDict) (st : EngineState)
    (D : Finset String) : StepFacts ctx D st (progressState ctx results st) := by
  unfold progressState
  split
  · exact stepFacts_addWrite ctx D st _
  · exact stepFacts_id ctx D st

theorem processResults_stepFacts (ctx : Ctx) (s : Service) (results : ResultsDict)
    (st st2 : EngineState) (D : Finset String)
    (hD : summaryDevs results.summary ⊆ D)
    (hok : processResults ctx s results st = .ok st2) :
    StepFacts ctx D st st2 := by
  obtain ⟨stA, hA, hB⟩ := processResults_elim ctx s results st st2 hok
  have f0 := progressState_stepFacts ctx results st D
  have f1 := processEdgeType_stepFacts ctx s _ results.summary "success" _ stA D hD hA
  have f2 := processEdgeType_stepFacts ctx s _ results.summary "failure" stA st2 D hD hB
  exact stepFacts_trans ctx D _ _ _ (stepFacts_trans ctx D _ _ _ f0 f1) f2

theorem progressState_heap (ctx : Ctx) (results : ResultsDict) (st : EngineState) :
    (progressState ctx results st).heap = st.heap := by
  unfold progressState
  split
  · rfl
  · rfl

theorem processResults_heapWf (ctx : Ctx) (s : Service) (results : ResultsDict)
    (st st2 : EngineState) (hwf : heapWf st.heap)
    (hok : processResults ctx s results st = .ok st2) : heapWf st2.heap := by
  obtain ⟨stA, hA, hB⟩ := processResults_elim ctx s results st st2 hok
  have hwf0 : heapWf (progressState ctx results st).heap := by
    rw [progressState_heap]
    exact hwf
  have hwfA := processEdgeType_heapWf ctx s _ results.summary "success" _ stA hwf0 hA
  exact processEdgeType_heapWf ctx s _ results.summary "failure" stA st2 hwfA hB

/-! ### `jobStep` characterizations -/

theorem exceptMapOk {ε α β : Type} (x : Except ε α) (f : α → β) (b : β)
    (h : Except.map f x = .ok b) : ∃ a, x = .ok a ∧ f a = b := by
  cases x with
  | error e => simp [Except.map] at h
  | ok a =>
    refine ⟨a, rfl, ?_⟩
    simpa [Except.map] using h

theorem jobStep_final (ctx : Ctx) (st : EngineState)
    (hpop : heappop st.heap = none) :
    jobStep ctx st = .ok (.done (finalResults ctx st) st) := by
  unfold jobStep
  rw [hpop]

theorem jobStep_abort (ctx : Ctx) (st : EngineState) (e : Entry) (rest : List Entry)
    (hpop : heappop st.heap = some (e, rest))
    (hstop : ctx.run.stop st.time = true) :
    jobStep ctx st = .ok (.done (.abortedR ctx.run.payload) st) := by
  unfold jobStep
  rw [hpop]
  simp [hstop]

theorem jobStep_maxed (ctx : Ctx) (st : EngineState) (e : Entry) (rest : List Entry)
    (hpop : heappop st.heap = some (e, rest))
    (hstop : ctx.run.stop st.time = false)
    (hcount : e.service.maximum_runs ≤ st.numberOfRuns e.service.name) :
    jobStep ctx st = .ok (.running (postPopState st rest)) := by
  unfold jobStep
  rw [hpop]
  simp [hstop, postPopState, hcount]

theorem jobStep_skip (ctx : Ctx) (st : EngineState) (e : Entry) (rest : List Entry)
    (hpop : heappop st.heap = some (e, rest))
    (hstop : ctx.run.stop st.time = false)
    (hcount : st.numberOfRuns e.service.name < e.service.maximum_runs)
    (hskip : isSkipped ctx e.service) :
    jobStep ctx st =
      (processResults ctx e.service
        (skipResults ctx (dispatchState (postPopState st rest) e.service) e.service)
        (traceState (dispatchState (postPopState st rest) e.service) e.service
          (some (skipResults ctx (dispatchState (postPopState st rest) e.service)
            e.service)))).map .running := by
  unfold jobStep
  rw [hpop]
  simp only [hstop, Bool.false_eq_true, if_false]
  rw [if_neg (by simp [postPopState]; omega), if_pos hskip]

theorem jobStep_runner_none (ctx : Ctx) (st : EngineState) (e : Entry) (rest : List Entry)
    (hpop : heappop st.heap = some (e, rest))
    (hstop : ctx.run.stop st.time = false)
    (hcount : st.numberOfRuns e.service.name < e.service.maximum_runs)
    (hskip : ¬ isSkipped ctx e.service)
    (hrun : ctx.runner st.time
      (mkRunnerCall ctx (dispatchState (postPopState st rest) e.service) e.service) = none) :
    jobStep ctx st =
      .ok (.running (traceState
        (callState (dispatchState (postPopState st rest) e.service)
          (mkRunnerCall ctx (dispatchState (postPopState st rest) e.service) e.service))
        e.service none)) := by
  unfold jobStep
  rw [hpop]
  simp only [hstop, Bool.false_eq_true, if_false]
  rw [if_neg (by simp [postPopState]; omega), if_neg hskip, hrun]

theorem jobStep_runner_some (ctx : Ctx) (st : EngineState) (e : Entry) (rest : List Entry)
    (r : RunnerResults)
    (hpop : heappop st.heap = some (e, rest))
    (hstop : ctx.run.stop st.time = false)
    (hcount : st.numberOfRuns e.service.name < e.service.maximum_runs)
    (hskip : ¬ isSkipped ctx e.service)
    (hrun : ctx.runner st.time
      (mkRunnerCall ctx (dispatchState (postPopState st rest) e.service) e.service) =
        some r) :
    jobStep ctx st =
      (processResults ctx e.service (runnerDict r)
        (traceState
          (callState (dispatchState (postPopState st rest) e.service)
            (mkRunnerCall ctx (dispatchState (postPopState st rest) e.service) e.service))
          e.service (some (runnerDict r)))).map .running := by
  unfold jobStep
  rw [hpop]
  simp only [hstop, Bool.false_eq_true, if_false]
  rw [if_neg (by simp [postPopState]; omega), if_neg hskip, hrun]

/-! ### The loop-level invariant machinery -/

/-! ### Seeding-phase facts -/

theorem seedStep_ok (ctx : Ctx) (st : EngineState) (s : Service) (entry : Entry)
    (hent : mkEntry s = .ok entry) :
    seedStep ctx st s =
      .ok { st with
        targets := Function.update st.targets s.name
          (st.targets s.name ∪ startTargets ctx)
        heap := heappush st.heap entry } := by
  simp [seedStep, hent]

theorem seedStep_err (ctx : Ctx) (st : EngineState) (s : Service) (err : PyErr)
    (hent : mkEntry s = .error err) : seedStep ctx st s = .error err := by
  simp [seedStep, hent]

theorem seedFold_facts (ctx : Ctx) :
    ∀ (lst : List Service) (st st2 : EngineState),
      lst.foldlM (seedStep ctx) st = .ok st2 →
      (heapWf st.heap → heapWf st2.heap) ∧
      (∀ x ∈ st2.heap, x ∈ st.heap ∨ x.service ∈ lst) ∧
      st2.numberOfRuns = st.numberOfRuns ∧ st2.visited = st.visited ∧
      st2.writes = st.writes ∧ st2.trace = st.trace ∧
      st2.runnerCalls = st.runnerCalls ∧ st2.time = st.time ∧
      (∀ n, st2.targets n ⊆ st.targets n ∪ startTargets ctx) ∧
      (∀ n, st.targets n ⊆ st2.targets n) ∧
      (∀ s ∈ lst, startTargets ctx ⊆ st2.targets s.name) := by
  intro lst
  induction lst with
  | nil =>
    intro st st2 hok
    simp only [List.foldlM_nil] at hok
    injection hok with h1
    rw [← h1]
    exact ⟨fun hw => hw, fun x hx => Or.inl hx, rfl, rfl, rfl, rfl, rfl, rfl,
      fun n => Finset.subset_union_left, fun n => subset_rfl, fun s hs => absurd hs (by simp)⟩
  | cons a rest ih =>
    intro st st2 hok
    simp only [List.foldlM_cons] at hok
    cases hent : mkEntry a with
    | error err =>
      rw [seedStep_err ctx st a err hent] at hok
      simp at hok
    | ok entry =>
      rw [seedStep_ok ctx st a entry hent] at hok
      simp only [exceptOkBind] at hok
      obtain ⟨hwf1, hmem1, hnor1, hvis1, hwr1, htr1, hrc1, htime1, hup1, hmono1, hseed1⟩ :=
        ih _ st2 hok
      have hkeys := mkEntry_ok a entry hent
      refine ⟨?_, ?_, by rw [hnor1], by rw [hvis1], by rw [hwr1], by rw [htr1],
        by rw [hrc1], by rw [htime1], ?_, ?_, ?_⟩
      · intro hwf
        apply hwf1
        refine heappush_heapWf _ _ hwf ⟨?_, ?_⟩
        · rw [hkeys.1]; exact hkeys.2.1
        · rw [hkeys.1]; exact hkeys.2.2
      · intro x hx
        rcases hmem1 x hx with h1 | h1
        · rcases mem_heappush _ _ _ h1 with h2 | h2
          · exact Or.inl h2
          · refine Or.inr ?_
            rw [h2, hkeys.1]
            exact List.mem_cons_self _ _
        · exact Or.inr (List.mem_cons_of_mem _ h1)
      · intro n
        refine subset_trans (hup1 n) ?_
        intro z hz
        rcases Finset.mem_union.1 hz with h1 | h1
        · by_cases hn : n = a.name
          · subst hn
            simp only [Function.update_same] at h1
            rcases Finset.mem_union.1 h1 with h2 | h2
            · exact Finset.mem_union_left _ h2
            · exact Finset.mem_union_right _ h2
          · dsimp only at h1
            rw [Function.update_noteq hn] at h1
            exact Finset.mem_union_left _ h1
        · exact Finset.mem_union_right _ h1
      · intro n
        refine subset_trans ?_ (hmono1 n)
        dsimp only
        by_cases hn : n = a.name
        · subst hn
          simp only [Function.update_same]
          exact Finset.subset_union_left
        · rw [Function.update_noteq hn]
      · intro s hs
        rcases List.mem_cons.1 hs with h1 | h1
        · subst h1
          refine subset_trans ?_ (hmono1 s.name)
          dsimp only
          simp only [Function.update_same]
          exact Finset.subset_union_right
        · exact hseed1 s h1

/-- A seed service with `priority = 0` makes the seeding loop raise
`ZeroDivisionError`, whichever position it occupies. -/
theorem seedFold_zeroDiv (ctx : Ctx) :
    ∀ (lst : List Service) (st : EngineState) (s : Service),
      s ∈ lst → s.priority = 0 →
      lst.foldlM (seedStep ctx) st = .error .zeroDivision := by
  intro lst
  induction lst with
  | nil =>
    intro st s hs
    simp at hs
  | cons a rest ih =>
    intro st s hs hz
    simp only [List.foldlM_cons]
    by_cases ha : a.priority = 0
    · rw [seedStep_err ctx st a .zeroDivision (by simp [mkEntry, ha])]
      rfl
    · cases hent : mkEntry a with
      | error err =>
        exact absurd hent (by simp [mkEntry, ha])
      | ok entry =>
        rw [seedStep_ok ctx st a entry hent]
        simp only [exceptOkBind]
        have hsr : s ∈ rest := by
          rcases List.mem_cons.1 hs with h1 | h1
          · exact absurd (h1 ▸ hz) ha
          · exact h1
        exact ih _ s hsr hz

/-! ### Heap well-formedness along the whole loop -/

def lsState : LoopState → EngineState
  | .running st => st
  | .done _ st => st

def lsHeapWf (ls : LoopState) : Prop := heapWf (lsState ls).heap

theorem advance_heapWf (ctx : Ctx) (ls ls2 : LoopState)
    (hwf : lsHeapWf ls) (h : advance ctx ls = .ok ls2) : lsHeapWf ls2 := by
  cases ls with
  | done r st =>
    simp only [advance] at h
    injection h with h1
    rw [← h1]
    exact hwf
  | running st =>
    simp only [advance] at h
    cases hpop : heappop st.heap with
    | none =>
      rw [jobStep_final ctx st hpop] at h
      injection h with h1
      rw [← h1]
      exact hwf
    | some pr =>
      obtain ⟨e, rest⟩ := pr
      by_cases hstop : ctx.run.stop st.time = true
      · rw [jobStep_abort ctx st e rest hpop hstop] at h
        injection h with h1
        rw [← h1]
        exact hwf
      · have hstop2 : ctx.run.stop st.time = false := by simpa using hstop
        have hwfrest : heapWf rest := heappop_heapWf st.heap e rest hpop hwf
        by_cases hcount : e.service.maximum_runs ≤ st.numberOfRuns e.service.name
        · rw [jobStep_maxed ctx st e rest hpop hstop2 hcount] at h
          injection h with h1
          rw [← h1]
          exact hwfrest
        · have hcount2 : st.numberOfRuns e.service.name < e.service.maximum_runs := by omega
          by_cases hskip : isSkipped ctx e.service
          · rw [jobStep_skip ctx st e rest hpop hstop2 hcount2 hskip] at h
            obtain ⟨st2, hok, hls⟩ := exceptMapOk _ _ _ h
            rw [← hls]
            exact processResults_heapWf ctx e.service _ _ st2 hwfrest hok
          · cases hrun : ctx.runner st.time
                (mkRunnerCall ctx (dispatchState (postPopState st rest) e.service)
                  e.service) with
            | none =>
              rw [jobStep_runner_none ctx st e rest hpop hstop2 hcount2 hskip hrun] at h
              injection h with h1
              rw [← h1]
              exact hwfrest
            | some r =>
              rw [jobStep_runner_some ctx st e rest r hpop hstop2 hcount2 hskip hrun] at h
              obtain ⟨st2, hok, hls⟩ := exceptMapOk _ _ _ h
              rw [← hls]
              exact processResults_heapWf ctx e.service _ _ st2 hwfrest hok

theorem iterateLoop_preserves (ctx : Ctx) (P : LoopState → Prop)
    (hstep : ∀ ls ls2, P ls → advance ctx ls = .ok ls2 → P ls2) :
    ∀ (n : Nat) (ls ls2 : LoopState), P ls → iterateLoop ctx n ls = .ok ls2 → P ls2 := by
  intro n
  induction n with
  | zero =>
    intro ls ls2 hP h
    simp only [iterateLoop] at h
    injection h with h1
    rw [← h1]
    exact hP
  | succ m ih =>
    intro ls ls2 hP h
    simp only [iterateLoop] at h
    cases ha : advance ctx ls with
    | error e => rw [ha] at h; exact absurd h (by simp)
    | ok ls1 =>
      rw [ha] at h
      have h2 : iterateLoop ctx m ls1 = .ok ls2 := h
      exact ih ls1 ls2 (hstep ls ls1 hP ha) h2

/-! ## Scheduler client (`Task`, automation.py 518-551)

The HTTP layer is abstracted as the outcome of the request: either the
parsed JSON value, or the `requests` exception the call raised.
`_catch_request_exceptions` turns `ConnectionError`, `MissingSchema` and
`ReadTimeout` into the string `"Scheduler Unreachable"` and any other
exception into `"Error (...)"`; nothing propagates to the caller. -/

inductive ReqExc where
  | connectionError
  | missingSchema
  | readTimeout
  | jsonDecodeError
  | otherExc (msg : String)
deriving DecidableEq, Repr

/-- The `str(exc)` text interpolated into `f"Error ({exc})"`. -/
def excMessage : ReqExc → String
  | .connectionError => "ConnectionError"
  | .missingSchema => "MissingSchema"
  | .readTimeout => "ReadTimeout"
  | .jsonDecodeError => "JSONDecodeError"
  | .otherExc msg => msg

/-- The parsed JSON dict a successful `POST /schedule` returns; `active`
is read with `result.get("active", False)`. -/
structure SchedResponse where
  active : Option Bool
  body : Nat
deriving DecidableEq, Repr

/-- Python values the scheduler-client methods can return:
a bare string, a parsed JSON scalar, the literal dict
`{"alert": "Scheduler Unreachable: the task cannot be scheduled."}`,
or the scheduler's response dict. -/
inductive SchedOut where
  | str (s : String)
  | jsonVal (s : String)
  | alertDict
  | respDict (r : SchedResponse)
deriving DecidableEq, Repr

/-- `Task._catch_request_exceptions` (automation.py 518-528). -/
def catchRequestExceptions (r : Except ReqExc SchedOut) : SchedOut :=
  match r with
  | .ok v => v
  | .error .connectionError => .str "Scheduler Unreachable"
  | .error .missingSchema => .str "Scheduler Unreachable"
  | .error .readTimeout => .str "Scheduler Unreachable"
  | .error e => .str ("Error (" ++ excMessage e ++ ")")

/-- `Task.next_run_time` (automation.py 530-535): wrapped `GET` + `.json()`. -/
def next_run_time (resp : Except ReqExc String) : SchedOut :=
  catchRequestExceptions (resp.map SchedOut.jsonVal)

/-- `Task.time_before_next_run` (automation.py 537-540). -/
def time_before_next_run (resp : Except ReqExc String) : SchedOut :=
  catchRequestExceptions (resp.map SchedOut.jsonVal)

/-- The body of `Task.schedule` (automation.py 543-551): the inner `try`
catches only `ConnectionError`; every other exception propagates to the
decorator.  The second component is the update to `is_active`
(`result.get("active", False)`), `none` when the assignment is skipped. -/
def scheduleBody (resp : Except ReqExc SchedResponse) :
    Except ReqExc (SchedOut × Option Bool) :=
  match resp with
  | .error .connectionError => .ok (.alertDict, none)
  | .error e => .error e
  | .ok d => .ok (.respDict d, some (d.active.getD false))

/-- `Task.schedule` with its `_catch_request_exceptions` decorator. -/
def schedule (resp : Except ReqExc SchedResponse) : SchedOut × Option Bool :=
  match scheduleBody resp with
  | .ok p => p
  | .error e => (catchRequestExceptions (.error e), none)

/-! ## At-rest secrets (`Environment`, environment.py 62-101)

The primitives (`Fernet.encrypt`/`decrypt` from the `cryptography`
package and `base64.b64encode`/`b64decode` from the standard library) are
external collaborators, passed in as parameters; the embedding covers the
wrapper logic of `init_encryption`, `encrypt_password` and
`get_password`.  Byte strings are `List Nat`. -/

/-- A Python value that is either `str` or `bytes`. -/
inductive PyData where
  | str (s : String)
  | bytes (b : List Nat)
deriving DecidableEq, Repr

/-- Python truthiness of a `str`/`bytes` value (`if not password`). -/
def pyFalsy : PyData → Bool
  | .str s => s.isEmpty
  | .bytes b => b.isEmpty

/-- The encryption backend picked at boot. -/
structure CryptoEnv where
  fernet_encryption : Option String
  encrypt : List Nat → List Nat
  decrypt : List Nat → List Nat

/-- `Environment.init_encryption` (environment.py 95-101): Fernet when
`FERNET_KEY` is set, else base64. -/
def init_encryption (fernetKey : Option String)
    (fernetEncrypt fernetDecrypt b64encode b64decode : List Nat → List Nat) : CryptoEnv :=
  match fernetKey with
  | some key => ⟨some key, fernetEncrypt, fernetDecrypt⟩
  | none => ⟨none, b64encode, b64decode⟩

/-- `Environment.encrypt_password` (environment.py 62-65): UTF-8-encode a
`str` argument, then apply the chosen `encrypt`. -/
def encrypt_password (env : CryptoEnv) (strEncode : String → List Nat)
    (password : PyData) : List Nat :=
  match password with
  | .str s => env.encrypt (strEncode s)
  | .bytes b => env.encrypt b

/-- `Environment.get_password` (environment.py 67-72): `None` for a falsy
argument; a `str` argument is encoded to bytes (done explicitly under
Fernet; `b64decode` performs the same ASCII coercion itself); the result
is `str(decrypt(password), "utf-8")`. -/
def get_password (env : CryptoEnv) (strEncode : String → List Nat)
    (strDecode : List Nat → String) (password : PyData) : Option String :=
  if pyFalsy password then none
  else
    let pw : List Nat :=
      match password with
      | .bytes b => b
      | .str s => strEncode s
    some (strDecode (env.decrypt pw))

/-! ## Concrete scenario material shared by witnesses and counterexamples -/

def wStart : Service := ⟨1, "Start", "Start", 1, 1, [], "success"⟩

def wEnd : Service := ⟨2, "End", "End", 1, 1, [], "success"⟩

def wA : Service := ⟨3, "A", "A", 1, 1, [], "True"⟩

def wB : Service := ⟨4, "B", "B", 1, 1, [], "True"⟩

def wM : Service := ⟨5, "M", "M", 1, 1, [], "True"⟩

def wZero : Service := ⟨7, "Z", "Z", 0, 1, [], "True"⟩

def baseRun (method : String) (devs : List String) : Run :=
  { run_method := method, stop := fun _ => false, payload := 0,
    target_devices := devs, start_services := [], restart_run := none,
    parent_runtime := "t0", parent_device := none, placeholder := none }

/-- A one-entry engine state used to exercise single loop iterations. -/
def oneSvcState (s : Service) : EngineState :=
  { heap := [⟨1, s⟩], numberOfRuns := fun _ => 0, targets := fun _ => ∅,
    visited := [], writes := [], trace := [], runnerCalls := [], time := 0 }

/-- Extract the state of a successful `Except` computation (the engine
state holds functions, so the witness names the result through this
total projection rather than by a literal). -/
def okOr (x : Except PyErr EngineState) : EngineState :=
  match x with
  | .ok st => st
  | .error _ => emptyState

def isOkE (x : Except PyErr EngineState) : Bool :=
  match x with
  | .ok _ => true
  | .error _ => false

deriving instance DecidableEq for Except

theorem okOr_eq (x : Except PyErr EngineState) (h : isOkE x = true) : x = .ok (okOr x) := by
  cases x with
  | ok st => rfl
  | error e => simp [isOkE] at h

def runStateOr (x : Option (Except PyErr (JobResults × EngineState))) :
    JobResults × EngineState :=
  match x with
  | some (.ok p) => p
  | _ => (.plain 0 false, emptyState)

def runIsOk (x : Option (Except PyErr (JobResults × EngineState))) : Bool :=
  match x with
  | some (.ok _) => true
  | _ => false

theorem runStateOr_eq (x : Option (Except PyErr (JobResults × EngineState)))
    (h : runIsOk x = true) : x = some (.ok (runStateOr x)) := by
  match x with
  | some (.ok p) => rfl
  | some (.error e) => simp [runIsOk] at h
  | none => simp [runIsOk] at h

/-! ## Claim C7 -/

theorem iterateLoop_done (ctx : Ctx) (m : Nat) (r : JobResults) (st : EngineState) :
    iterateLoop ctx m (.done r st) = .ok (.done r st) := by
  induction m with
  | zero => rfl
  | succ k ih =>
    simp only [iterateLoop, advance, exceptOkBind]
    exact ih

/-- C7: on any loop iteration entered (the heap pops an entry) with
`run.stop` true, `job` immediately returns the
`{"payload": run.payload, "success": False, "result": "Aborted"}` dict
(the `abortedR` value), and however much further the loop machinery is
driven, the engine state is exactly the state at the check: no further
service is dispatched and no further edge or progress state is written. -/
theorem c7_stop_aborts (ctx : Ctx) (st : EngineState) (e : Entry) (rest : List Entry)
    (n : Nat)
    (hpop : heappop st.heap = some (e, rest))
    (hstop : ctx.run.stop st.time = true)
    (hn : 1 ≤ n) :
    iterateLoop ctx n (.running st) = .ok (.done (.abortedR ctx.run.payload) st) := by
  obtain ⟨m, rfl⟩ : ∃ m, n = m + 1 := ⟨n - 1, by omega⟩
  simp only [iterateLoop]
  rw [show advance ctx (.running st) = .ok (.done (.abortedR ctx.run.payload) st) from
    jobStep_abort ctx st e rest hpop hstop]
  simp only [exceptOkBind]
  exact iterateLoop_done ctx m _ st

def c7wCtx : Ctx :=
  { wfName := "W", edges := [], startS := wStart, endS := wEnd,
    run := { baseRun "per_device" [] with stop := fun _ => true }, device := none,
    runner := fun _ _ => none }

theorem c7_stop_aborts_witness :
    heappop (oneSvcState wA).heap = some (⟨1, wA⟩, []) ∧
    c7wCtx.run.stop (oneSvcState wA).time = true ∧
    iterateLoop c7wCtx 1 (.running (oneSvcState wA)) =
      .ok (.done (.abortedR 0) (oneSvcState wA)) :=
  ⟨by decide, rfl,
    c7_stop_aborts c7wCtx (oneSvcState wA) ⟨1, wA⟩ [] 1 (by decide) rfl (by decide)⟩

/-! ## Claim C10 -/

/-- C10: in tracking-BFS mode (`run_method ==
"per_service_with_workflow_targets"`), dispatching a non-skipped service
whose (non-empty) Runner results carry no `"summary"` key makes the loop
iteration raise `KeyError("success")` — `summary[edge_type]` is indexed
on the empty dict instead of treating the device set as empty — so `job`
is total only when such results always carry a summary. -/
theorem c10_missing_summary_keyerror (ctx : Ctx) (st : EngineState) (e : Entry)
    (rest : List Entry) (r : RunnerResults)
    (htrack : trackingBfs ctx.run = true)
    (hpop : heappop st.heap = some (e, rest))
    (hstop : ctx.run.stop st.time = false)
    (hcount : st.numberOfRuns e.service.name < e.service.maximum_runs)
    (hskip : ¬ isSkipped ctx e.service)
    (hrun : ctx.runner st.time
      (mkRunnerCall ctx (dispatchState (postPopState st rest) e.service) e.service) =
        some r)
    (hsum : r.summary = none) :
    jobStep ctx st = .error (.keyError "success") := by
  rw [jobStep_runner_some ctx st e rest r hpop hstop hcount hskip hrun]
  have hidx : summaryIndex (runnerDict r).summary "success" = .error (.keyError "success") := by
    have hsum2 : (runnerDict r).summary = none := by simp [runnerDict, hsum]
    rw [hsum2]
    rfl
  have hPR : processResults ctx e.service (runnerDict r)
      (traceState
        (callState (dispatchState (postPopState st rest) e.service)
          (mkRunnerCall ctx (dispatchState (postPopState st rest) e.service) e.service))
        e.service (some (runnerDict r))) = .error (.keyError "success") := by
    unfold processResults
    rw [processEdgeType_tracking_err ctx e.service _ (runnerDict r).summary "success" _
      (.keyError "success") htrack hidx]
    rfl
  rw [hPR]
  rfl

def c10wCtx : Ctx :=
  { wfName := "W", edges := [], startS := wStart, endS := wEnd,
    run := baseRun "per_service_with_workflow_targets" ["d1"], device := none,
    runner := fun _ _ => some ⟨true, none⟩ }

theorem c10_missing_summary_witness :
    trackingBfs c10wCtx.run = true ∧ ¬ isSkipped c10wCtx wM ∧
    jobStep c10wCtx (oneSvcState wM) = .error (.keyError "success") :=
  ⟨rfl, by decide,
    c10_missing_summary_keyerror c10wCtx (oneSvcState wM) ⟨1, wM⟩ [] ⟨true, none⟩
      rfl (by decide) rfl (by decide) (by decide) rfl rfl⟩

/-! ## Claim C6 -/

/-- C6 (amended): `Workflow.job` performs no coercion on `priority`
before computing the heap key `1 / priority`: seeding a service whose
priority is 0 makes the run raise `ZeroDivisionError` (and dispatch
nothing) instead of dispatching it. -/
theorem c6_zero_priority_raises (ctx : Ctx) (fuel : Nat) (s : Service)
    (hs : s ∈ seedServices ctx.run ctx.startS) (hz : s.priority = 0) :
    jobRun ctx fuel = some (.error .zeroDivision) := by
  unfold jobRun initState
  rw [seedFold_zeroDiv ctx _ emptyState s hs hz]

def c6wCtx : Ctx :=
  { wfName := "W", edges := [], startS := wStart, endS := wEnd,
    run := { baseRun "per_device" [] with start_services := [wZero] }, device := none,
    runner := fun _ _ => none }

theorem c6_zero_priority_witness :
    wZero ∈ seedServices c6wCtx.run c6wCtx.startS ∧ wZero.priority = 0 ∧
    jobRun c6wCtx 4 = some (.error .zeroDivision) :=
  ⟨by decide, rfl, c6_zero_priority_raises c6wCtx 4 wZero (by decide) rfl⟩

/-- C6 counterexample: with a priority-0 seed the engine raises
`ZeroDivisionError` and never produces a result, refuting the claim that
`job` coerces the priority to at least 1 and still dispatches the
service instead of raising. -/
theorem c6_no_coercion_counterexample :
    resultOf (jobRun c6wCtx 4) = some (.error .zeroDivision) ∧
    ∀ r : JobResults, resultOf (jobRun c6wCtx 4) ≠ some (.ok r) := by
  have h1 : resultOf (jobRun c6wCtx 4) = some (.error .zeroDivision) := by decide
  refine ⟨h1, ?_⟩
  intro r hr
  rw [h1] at hr
  exact absurd hr (by simp)

/-! ## Claim C8 -/

/-- C8 (amended): no scheduler-client call raises to its caller.  The
read endpoints `next_run_time` and `time_before_next_run` return the
string `"Scheduler Unreachable"` for connection, missing-schema and
timeout errors.  `Task.schedule` returns the
`{"alert": "Scheduler Unreachable: the task cannot be scheduled."}` dict
only for `ConnectionError` (the only exception its inner `try` catches);
a timeout propagates to the decorator and yields the bare string
`"Scheduler Unreachable"`, and a malformed JSON response yields an
`"Error (...)"` string.  On success it returns the parsed dict and sets
`is_active` from `result.get("active", False)`. -/
theorem c8_scheduler_client_behavior (d : SchedResponse) (s : String) :
    next_run_time (.error .connectionError) = .str "Scheduler Unreachable" ∧
    next_run_time (.error .readTimeout) = .str "Scheduler Unreachable" ∧
    next_run_time (.error .missingSchema) = .str "Scheduler Unreachable" ∧
    next_run_time (.ok s) = .jsonVal s ∧
    time_before_next_run (.error .connectionError) = .str "Scheduler Unreachable" ∧
    time_before_next_run (.error .readTimeout) = .str "Scheduler Unreachable" ∧
    schedule (.error .connectionError) = (.alertDict, none) ∧
    schedule (.error .readTimeout) = (.str "Scheduler Unreachable", none) ∧
    schedule (.error .jsonDecodeError) = (.str "Error (JSONDecodeError)", none) ∧
    schedule (.ok d) = (.respDict d, some (d.active.getD false)) :=
  ⟨rfl, rfl, rfl, rfl, rfl, rfl, rfl, rfl, rfl, rfl⟩

/-- C8 counterexample: a read timeout and a malformed JSON response on
the schedule write do not produce the alert dict the claim promises —
the former yields the bare string `"Scheduler Unreachable"` (from the
decorator) and the latter an `"Error (...)"` string. -/
theorem c8_schedule_write_counterexample :
    schedule (.error .readTimeout) = (.str "Scheduler Unreachable", none) ∧
    schedule (.error .jsonDecodeError) = (.str "Error (JSONDecodeError)", none) ∧
    (SchedOut.str "Scheduler Unreachable" ≠ .alertDict) ∧
    (SchedOut.str "Error (JSONDecodeError)" ≠ .alertDict) :=
  ⟨rfl, rfl, by decide, by decide⟩

/-! ## Claim C9 -/

/-- C9: stored secrets round-trip whether or not `FERNET_KEY` is set:
for every non-empty password, `get_password` applied to the value
`encrypt_password` produced returns the original string, both under
Fernet encryption and under the base64 fallback, provided the chosen
primitive pair round-trips (a documented property of both `Fernet` and
`base64`) and the ciphertext is non-empty (true for both primitives on
any input). -/
theorem c9_password_roundtrip (fernetKey : Option String)
    (fe fd be bd : List Nat → List Nat) (strEncode : String → List Nat)
    (strDecode : List Nat → String) (p : String)
    (hfe : ∀ b, fd (fe b) = b)
    (hb : ∀ b, bd (be b) = b)
    (hcodec : ∀ s, strDecode (strEncode s) = s)
    (hp : p ≠ "")
    (hne : (init_encryption fernetKey fe fd be bd).encrypt (strEncode p) ≠ []) :
    get_password (init_encryption fernetKey fe fd be bd) strEncode strDecode
      (.bytes (encrypt_password (init_encryption fernetKey fe fd be bd) strEncode
        (.str p))) = some p := by
  have henv : ∀ env : CryptoEnv, (∀ b, env.decrypt (env.encrypt b) = b) →
      env.encrypt (strEncode p) ≠ [] →
      get_password env strEncode strDecode
        (.bytes (encrypt_password env strEncode (.str p))) = some p := by
    intro env hrt hne2
    unfold encrypt_password get_password
    rw [if_neg ?_]
    · dsimp only
      rw [hrt, hcodec]
    · simp only [pyFalsy]
      intro hc
      exact hne2 (by simpa using hc)
  cases fernetKey with
  | none => exact henv _ hb hne
  | some key => exact henv _ hfe hne

def chrEncode (s : String) : List Nat := s.data.map Char.toNat

def chrDecode (l : List Nat) : String := String.mk (l.map Char.ofNat)

theorem chr_roundtrip (s : String) : chrDecode (chrEncode s) = s := by
  unfold chrEncode chrDecode
  rw [List.map_map]
  have hcomp : (Char.ofNat ∘ Char.toNat) = id := funext fun c => Char.ofNat_toNat c
  rw [hcomp, List.map_id]

theorem c9_password_roundtrip_witness :
    ("pw" : String) ≠ "" ∧
    (init_encryption (some "k") id id id id).encrypt (chrEncode "pw") ≠ [] ∧
    get_password (init_encryption (some "k") id id id id) chrEncode chrDecode
      (.bytes (encrypt_password (init_encryption (some "k") id id id id) chrEncode
        (.str "pw"))) = some "pw" ∧
    get_password (init_encryption none id id id id) chrEncode chrDecode
      (.bytes (encrypt_password (init_encryption none id id id id) chrEncode
        (.str "pw"))) = some "pw" :=
  ⟨by decide, by decide,
    c9_password_roundtrip (some "k") id id id id chrEncode chrDecode "pw"
      (fun _ => rfl) (fun _ => rfl) chr_roundtrip (by decide) (by decide),
    c9_password_roundtrip none id id id id chrEncode chrDecode "pw"
      (fun _ => rfl) (fun _ => rfl) chr_roundtrip (by decide) (by decide)⟩

/-! ## Claim C4 -/

def lsOr (x : Except PyErr LoopState) : LoopState :=
  match x with
  | .ok ls => ls
  | .error _ => .running emptyState

def isOkLs (x : Except PyErr LoopState) : Bool :=
  match x with
  | .ok _ => true
  | .error _ => false

theorem lsOr_eq (x : Except PyErr LoopState) (h : isOkLs x = true) : x = .ok (lsOr x) := by
  cases x with
  | ok ls => rfl
  | error e => simp [isOkLs] at h

/-- C4 (amended): a dispatched service that is `Start`, `End`, or has
`skip[workflow.name]` true is never handed to a Runner (the run's Runner
call log is unchanged); `job` synthesizes
`{"result": "skipped", "success": skip_value == "success"}` and — when
`run_method == "per_service_with_workflow_targets"` or a per-device
`device` argument is present (`tracking_bfs or device`), not in the
`per_service_with_service_targets` mode — also a summary assigning all
of `targets[s.name]` to the success bucket and an empty failure bucket. -/
theorem c4_skip_synthesis (ctx : Ctx) (st : EngineState) (e : Entry)
    (rest : List Entry) (ls : LoopState)
    (hpop : heappop st.heap = some (e, rest))
    (hstop : ctx.run.stop st.time = false)
    (hcount : st.numberOfRuns e.service.name < e.service.maximum_runs)
    (hskip : isSkipped ctx e.service)
    (hok : jobStep ctx st = .ok ls) :
    ∃ st3, ls = .running st3 ∧
      st3.runnerCalls = st.runnerCalls ∧
      st3.trace = st.trace ++ [(e.service,
        some { success := e.service.skip_value == "success"
               result := some "skipped"
               summary := if inBfsOrDevice ctx then
                   some ⟨.set (st.targets e.service.name), .list []⟩ else none })] := by
  rw [jobStep_skip ctx st e rest hpop hstop hcount hskip] at hok
  obtain ⟨st3, hpr, hls⟩ := exceptMapOk _ _ _ hok
  have facts := processResults_stepFacts ctx e.service _ _ st3
    (summaryDevs (skipResults ctx (dispatchState (postPopState st rest) e.service)
      e.service).summary) subset_rfl hpr
  refine ⟨st3, hls.symm, ?_, ?_⟩
  · rw [facts.rc]
    rfl
  · rw [facts.tr]
    rfl

def c4wCtx : Ctx :=
  { wfName := "W", edges := [], startS := wStart, endS := wEnd,
    run := baseRun "per_service_with_workflow_targets" ["d1"], device := none,
    runner := fun _ _ => none }

def c4wSt : EngineState :=
  { oneSvcState wStart with targets := fun n => if n = "Start" then {"d1"} else ∅ }

theorem c4_skip_synthesis_witness :
    isSkipped c4wCtx wStart ∧ inBfsOrDevice c4wCtx = true ∧
    (∃ st3, lsOr (jobStep c4wCtx c4wSt) = .running st3 ∧
      st3.runnerCalls = c4wSt.runnerCalls ∧
      st3.trace = c4wSt.trace ++ [(wStart,
        some { success := wStart.skip_value == "success"
               result := some "skipped"
               summary := if inBfsOrDevice c4wCtx then
                   some ⟨.set (c4wSt.targets wStart.name), .list []⟩ else none })]) :=
  ⟨by decide, rfl,
    c4_skip_synthesis c4wCtx c4wSt ⟨1, wStart⟩ [] (lsOr (jobStep c4wCtx c4wSt))
      (by decide) rfl (by decide) (by decide) (lsOr_eq _ (by decide))⟩

def c4cCtx : Ctx :=
  { wfName := "W", edges := [], startS := wStart, endS := wEnd,
    run := baseRun "per_service_with_service_targets" ["d1"], device := none,
    runner := fun _ _ => none }

/-- C4 counterexample: in the `per_service_with_service_targets` run
method — a BFS mode by the specification's glossary — the skip branch
synthesizes no summary at all (`tracking_bfs` is false and there is no
device), although the dispatched `Start` has the non-empty target set
`{"d1"}` that the claim says must be placed in the success bucket. -/
theorem c4_service_targets_counterexample :
    traceOf (jobRun c4cCtx 4) = some [(wStart, some ⟨true, some "skipped", none⟩)] ∧
    (none ≠ some (Summary.mk (.set {"d1"}) (.list []))) :=
  ⟨by decide, by decide⟩

/-! ## Claim C5 -/

/-- C5 (amended): in any state the loop reaches from a seeded start,
the popped (hence dispatched) entry carries a maximal priority among the
pending entries, for services with priority at least 1: whenever `e` is
dispatched while `x` is pending, `x.priority ≤ e.priority`.  (Ties are
settled by the heap array layout under the constantly-true
`AbstractBase.__lt__`, not by insertion order.) -/
theorem c5_priority_dispatch (ctx : Ctx) (st0 st : EngineState) (n : Nat)
    (e : Entry) (rest : List Entry) (x : Entry)
    (hinit : initState ctx = .ok st0)
    (hreach : iterateLoop ctx n (.running st0) = .ok (.running st))
    (hpop : heappop st.heap = some (e, rest))
    (hx : x ∈ st.heap)
    (hpe : 1 ≤ e.service.priority) (hpx : 1 ≤ x.service.priority) :
    x.service.priority ≤ e.service.priority := by
  have hfold := seedFold_facts ctx (seedServices ctx.run ctx.startS) emptyState st0
    (by unfold initState at hinit; exact hinit)
  have hwf0 : heapWf st0.heap := by
    apply hfold.1
    constructor
    · intro i hi0 hlen
      simp [emptyState] at hlen
    · intro y hy
      simp [emptyState] at hy
  have hwf0L : lsHeapWf (.running st0) := hwf0
  have hls : lsHeapWf (.running st) :=
    iterateLoop_preserves ctx lsHeapWf (advance_heapWf ctx) n _ _ hwf0L hreach
  exact heappop_max_priority st.heap e rest hpop hls x hx hpe hpx

def wOne : Service := ⟨8, "P1", "P1", 1, 1, [], "True"⟩

def wTwo : Service := ⟨9, "P2", "P2", 2, 1, [], "True"⟩

def c5wCtx : Ctx :=
  { wfName := "W", edges := [], startS := wStart, endS := wEnd,
    run := { baseRun "per_device" [] with start_services := [wTwo, wOne] },
    device := none, runner := fun _ _ => none }

def c5wSt : EngineState := okOr (initState c5wCtx)

theorem c5_priority_dispatch_witness :
    heappop c5wSt.heap = some (⟨1 / 2, wTwo⟩, [⟨1, wOne⟩]) ∧
    (⟨(1 : ℚ), wOne⟩ : Entry) ∈ c5wSt.heap ∧
    wOne.priority ≤ wTwo.priority := by
  have hpop : heappop c5wSt.heap = some (⟨1 / 2, wTwo⟩, [⟨1, wOne⟩]) := by decide!
  have hmem : (⟨(1 : ℚ), wOne⟩ : Entry) ∈ c5wSt.heap := by decide!
  have hinit : initState c5wCtx = .ok c5wSt := okOr_eq _ (by decide!)
  exact ⟨hpop, hmem,
    c5_priority_dispatch c5wCtx c5wSt c5wSt 0 ⟨1 / 2, wTwo⟩ [⟨1, wOne⟩] ⟨1, wOne⟩
      hinit rfl hpop hmem (by decide) (by decide)⟩

def c5cCtx : Ctx :=
  { wfName := "W",
    edges := [⟨10, "success", 1, wA, "W"⟩, ⟨11, "success", 1, wB, "W"⟩],
    startS := wStart, endS := wEnd,
    run := baseRun "per_device" [], device := none,
    runner := fun _ _ => some ⟨true, none⟩ }

/-- C5 counterexample: `Start` has two equal-priority successors; the
edge list pushes `A` first, then `B`.  Because `AbstractBase.__lt__` is
constantly true, the later push bubbles to the heap root, so the code
dispatches `B` before `A` (trace `Start, B, A`), refuting "the one
pushed onto the heap first is dispatched first". -/
theorem c5_tie_counterexample :
    traceNamesOf (jobRun c5cCtx 6) = some ["Start", "B", "A"] ∧
    (["Start", "B", "A"] ≠ ["Start", "A", "B"]) :=
  ⟨by decide!, by decide⟩

/-! ## Claim C2 -/

/-- Exhaustive case analysis of one successful loop iteration. -/
theorem jobStep_elim (ctx : Ctx) (st : EngineState) (ls2 : LoopState)
    (hok : jobStep ctx st = .ok ls2) :
    (heappop st.heap = none ∧ ls2 = .done (finalResults ctx st) st) ∨
    (∃ e rest, heappop st.heap = some (e, rest) ∧ ctx.run.stop st.time = true ∧
      ls2 = .done (.abortedR ctx.run.payload) st) ∨
    (∃ e rest, heappop st.heap = some (e, rest) ∧ ctx.run.stop st.time = false ∧
      e.service.maximum_runs ≤ st.numberOfRuns e.service.name ∧
      ls2 = .running (postPopState st rest)) ∨
    (∃ e rest st2, heappop st.heap = some (e, rest) ∧ ctx.run.stop st.time = false ∧
      st.numberOfRuns e.service.name < e.service.maximum_runs ∧ isSkipped ctx e.service ∧
      processResults ctx e.service
        (skipResults ctx (dispatchState (postPopState st rest) e.service) e.service)
        (traceState (dispatchState (postPopState st rest) e.service) e.service
          (some (skipResults ctx (dispatchState (postPopState st rest) e.service)
            e.service))) = .ok st2 ∧
      ls2 = .running st2) ∨
    (∃ e rest, heappop st.heap = some (e, rest) ∧ ctx.run.stop st.time = false ∧
      st.numberOfRuns e.service.name < e.service.maximum_runs ∧ ¬ isSkipped ctx e.service ∧
      ctx.runner st.time (mkRunnerCall ctx (dispatchState (postPopState st rest) e.service)
        e.service) = none ∧
      ls2 = .running (traceState
        (callState (dispatchState (postPopState st rest) e.service)
          (mkRunnerCall ctx (dispatchState (postPopState st rest) e.service) e.service))
        e.service none)) ∨
    (∃ e rest r st2, heappop st.heap = some (e, rest) ∧ ctx.run.stop st.time = false ∧
      st.numberOfRuns e.service.name < e.service.maximum_runs ∧ ¬ isSkipped ctx e.service ∧
      ctx.runner st.time (mkRunnerCall ctx (dispatchState (postPopState st rest) e.service)
        e.service) = some r ∧
      processResults ctx e.service (runnerDict r)
        (traceState (callState (dispatchState (postPopState st rest) e.service)
          (mkRunnerCall ctx (dispatchState (postPopState st rest) e.service) e.service))
          e.service (some (runnerDict r))) = .ok st2 ∧
      ls2 = .running st2) := by
  cases hpop : heappop st.heap with
  | none =>
    left
    rw [jobStep_final ctx st hpop] at hok
    injection hok with h1
    exact ⟨rfl, h1.symm⟩
  | some p =>
    obtain ⟨e, rest⟩ := p
    by_cases hstop : ctx.run.stop st.time = true
    · right; left
      rw [jobStep_abort ctx st e rest hpop hstop] at hok
      injection hok with h1
      exact ⟨e, rest, rfl, hstop, h1.symm⟩
    · have hstop2 : ctx.run.stop st.time = false := by
        revert hstop; cases ctx.run.stop st.time <;> simp
      by_cases hcount : e.service.maximum_runs ≤ st.numberOfRuns e.service.name
      · right; right; left
        rw [jobStep_maxed ctx st e rest hpop hstop2 hcount] at hok
        injection hok with h1
        exact ⟨e, rest, rfl, hstop2, hcount, h1.symm⟩
      · have hcount2 : st.numberOfRuns e.service.name < e.service.maximum_runs := by omega
        by_cases hskip : isSkipped ctx e.service
        · right; right; right; left
          rw [jobStep_skip ctx st e rest hpop hstop2 hcount2 hskip] at hok
          obtain ⟨st2, hpr, hls⟩ := exceptMapOk _ _ _ hok
          exact ⟨e, rest, st2, rfl, hstop2, hcount2, hskip, hpr, hls.symm⟩
        · cases hrun : ctx.runner st.time
              (mkRunnerCall ctx (dispatchState (postPopState st rest) e.service)
                e.service) with
          | none =>
            right; right; right; right; left
            rw [jobStep_runner_none ctx st e rest hpop hstop2 hcount2 hskip hrun] at hok
            injection hok with h1
            exact ⟨e, rest, rfl, hstop2, hcount2, hskip, hrun, h1.symm⟩
          | some r =>
            right; right; right; right; right
            rw [jobStep_runner_some ctx st e rest r hpop hstop2 hcount2 hskip hrun] at hok
            obtain ⟨st2, hpr, hls⟩ := exceptMapOk _ _ _ hok
            exact ⟨e, rest, r, st2, rfl, hstop2, hcount2, hskip, hrun, hpr, hls.symm⟩

/-- The number of entries of the dispatch trace carrying a given service
name: one per dispatch (Runner invocation or skip synthesis) of that
service. -/
def dispatchCount (tr : List (Service × Option ResultsDict)) (nm : String) : Nat :=
  (tr.filter (fun p => p.1.name == nm)).length

theorem dispatchCount_append (tr : List (Service × Option ResultsDict)) (nm : String)
    (s : Service) (r : Option ResultsDict) :
    dispatchCount (tr ++ [(s, r)]) nm =
      dispatchCount tr nm + (if s.name = nm then 1 else 0) := by
  unfold dispatchCount
  rw [List.filter_append, List.length_append]
  by_cases h : s.name = nm
  · simp [List.filter, beq_iff_eq, h]
  · have hb : (s.name == nm) = false := beq_eq_false_iff_ne.mpr h
    simp [List.filter, hb]
    exact h

/-- The per-state content of the run-count invariant for services named
`nm` whose `maximum_runs` is `M`. -/
def c2Core (nm : String) (M : Nat) (st : EngineState) : Prop :=
  dispatchCount st.trace nm = st.numberOfRuns nm ∧ st.numberOfRuns nm ≤ M ∧
  (∀ x ∈ st.heap, x.service.name = nm → x.service.maximum_runs = M)

def c2Inv (nm : String) (M : Nat) (ls : LoopState) : Prop := c2Core nm M (lsState ls)

theorem c2Core_dispatch (ctx : Ctx) (nm : String) (M : Nat) (st : EngineState)
    (e : Entry) (rest : List Entry) (st2 : EngineState) (r : Option ResultsDict)
    (hedges : ∀ ed ∈ ctx.edges, ed.destination.name = nm → ed.destination.maximum_runs = M)
    (hpop : heappop st.heap = some (e, rest))
    (hcount : st.numberOfRuns e.service.name < e.service.maximum_runs)
    (hInv : c2Core nm M st)
    (htr : st2.trace = st.trace ++ [(e.service, r)])
    (hnor : st2.numberOfRuns = Function.update st.numberOfRuns e.service.name
      (st.numberOfRuns e.service.name + 1))
    (hheap : ∀ x ∈ st2.heap, x ∈ rest ∨ ∃ ed ∈ ctx.edges, x.service = ed.destination) :
    c2Core nm M st2 := by
  obtain ⟨h1, h2, h3⟩ := hInv
  have hemem : e ∈ st.heap := (heappop_mem _ _ _ hpop).1
  have hrest : ∀ y ∈ rest, y ∈ st.heap := (heappop_mem _ _ _ hpop).2
  refine ⟨?_, ?_, ?_⟩
  · rw [htr, dispatchCount_append, hnor, h1]
    by_cases h : e.service.name = nm
    · rw [if_pos h, h, Function.update_same]
    · rw [if_neg h, Function.update_noteq (fun hh => h hh.symm)]
      omega
  · rw [hnor]
    by_cases h : e.service.name = nm
    · rw [h, Function.update_same]
      rw [h, h3 e hemem h] at hcount
      omega
    · rw [Function.update_noteq (fun hh => h hh.symm)]
      exact h2
  · intro x hx hxn
    rcases hheap x hx with hx1 | ⟨ed, hed, hxe⟩
    · exact h3 x (hrest x hx1) hxn
    · rw [hxe] at hxn ⊢
      exact hedges ed hed hxn

theorem c2_advance (ctx : Ctx) (nm : String) (M : Nat)
    (hedges : ∀ ed ∈ ctx.edges, ed.destination.name = nm →
      ed.destination.maximum_runs = M) :
    ∀ ls ls2, c2Inv nm M ls → advance ctx ls = .ok ls2 → c2Inv nm M ls2 := by
  intro ls ls2 hP hadv
  cases ls with
  | done r st =>
    simp only [advance] at hadv
    injection hadv with h1
    rw [← h1]
    exact hP
  | running st =>
    have hC : c2Core nm M st := hP
    simp only [advance] at hadv
    rcases jobStep_elim ctx st ls2 hadv with
      ⟨hpop, hls⟩ | ⟨e, rest, hpop, hstop, hls⟩ | ⟨e, rest, hpop, hstop, hcount, hls⟩ |
      ⟨e, rest, st2, hpop, hstop, hcount, hskip, hpr, hls⟩ |
      ⟨e, rest, hpop, hstop, hcount, hskip, hrun, hls⟩ |
      ⟨e, rest, r, st2, hpop, hstop, hcount, hskip, hrun, hpr, hls⟩
    · subst hls
      exact hC
    · subst hls
      exact hC
    · subst hls
      obtain ⟨h1, h2, h3⟩ := hC
      show c2Core nm M (postPopState st rest)
      refine ⟨h1, h2, ?_⟩
      intro x hx hxn
      exact h3 x ((heappop_mem _ _ _ hpop).2 x hx) hxn
    · subst hls
      have facts := processResults_stepFacts ctx e.service _ _ st2 (summaryDevs
        (skipResults ctx (dispatchState (postPopState st rest) e.service)
          e.service).summary) subset_rfl hpr
      show c2Core nm M st2
      apply c2Core_dispatch ctx nm M st e rest st2 _ hedges hpop hcount hC
      · rw [facts.tr]
        rfl
      · rw [facts.nor]
        rfl
      · intro x hx
        rcases facts.hmem x hx with hx1 | hx2
        · exact Or.inl hx1
        · exact Or.inr hx2
    · subst hls
      show c2Core nm M (traceState
        (callState (dispatchState (postPopState st rest) e.service)
          (mkRunnerCall ctx (dispatchState (postPopState st rest) e.service) e.service))
        e.service none)
      apply c2Core_dispatch ctx nm M st e rest _ none hedges hpop hcount hC
      · rfl
      · rfl
      · intro x hx
        exact Or.inl hx
    · subst hls
      have facts := processResults_stepFacts ctx e.service _ _ st2 (summaryDevs
        (runnerDict r).summary) subset_rfl hpr
      show c2Core nm M st2
      apply c2Core_dispatch ctx nm M st e rest st2 _ hedges hpop hcount hC
      · rw [facts.tr]
        rfl
      · rw [facts.nor]
        rfl
      · intro x hx
        rcases facts.hmem x hx with hx1 | hx2
        · exact Or.inl hx1
        · exact Or.inr hx2

/-- C2: over any run of `Workflow.job` (any number of loop iterations
from the seeded start), a service `s` is dispatched — Runner invoked or
skip result synthesized, i.e. one trace entry — at most
`s.maximum_runs` times, provided every workflow service carrying the
name of `s` (seed or edge destination) has the `maximum_runs` of `s`: a
popped entry whose dispatch count has reached the cap is dropped
post-pop even though further copies may still sit in the heap. -/
theorem c2_runcount_cap (ctx : Ctx) (st0 : EngineState) (n : Nat) (ls : LoopState)
    (s : Service)
    (hseed : ∀ x ∈ seedServices ctx.run ctx.startS, x.name = s.name →
      x.maximum_runs = s.maximum_runs)
    (hedges : ∀ ed ∈ ctx.edges, ed.destination.name = s.name →
      ed.destination.maximum_runs = s.maximum_runs)
    (hinit : initState ctx = .ok st0)
    (hrun : iterateLoop ctx n (.running st0) = .ok ls) :
    dispatchCount (lsState ls).trace s.name ≤ s.maximum_runs := by
  have hfold := seedFold_facts ctx (seedServices ctx.run ctx.startS) emptyState st0
    (by unfold initState at hinit; exact hinit)
  have hP0 : c2Inv s.name s.maximum_runs (.running st0) := by
    show c2Core s.name s.maximum_runs st0
    refine ⟨?_, ?_, ?_⟩
    · rw [hfold.2.2.1, hfold.2.2.2.2.2.1]
      rfl
    · rw [hfold.2.2.1]
      exact Nat.zero_le _
    · intro x hx hxn
      rcases hfold.2.1 x hx with h1 | h1
      · simp [emptyState] at h1
      · exact hseed x.service h1 hxn
  have hP := iterateLoop_preserves ctx (c2Inv s.name s.maximum_runs)
    (c2_advance ctx s.name s.maximum_runs hedges) n _ _ hP0 hrun
  have hC : c2Core s.name s.maximum_runs (lsState ls) := hP
  rw [hC.1]
  exact hC.2.1

def c2wCtx : Ctx :=
  { wfName := "W", edges := [], startS := wStart, endS := wEnd,
    run := { baseRun "per_device" [] with start_services := [wA] },
    device := none, runner := fun _ _ => some ⟨true, none⟩ }

def c2wSt : EngineState := okOr (initState c2wCtx)

def c2wLs : LoopState := lsOr (iterateLoop c2wCtx 3 (.running c2wSt))

theorem c2_runcount_cap_witness :
    dispatchCount (lsState c2wLs).trace wA.name ≤ wA.maximum_runs ∧
    dispatchCount (lsState c2wLs).trace wA.name = 1 :=
  ⟨c2_runcount_cap c2wCtx c2wSt 3 c2wLs wA (by decide) (by decide)
      (okOr_eq _ (by decide!)) (lsOr_eq _ (by decide!)),
    by decide!⟩

/-! ## Claim C3 -/

def lsResOr (ls : LoopState) : JobResults :=
  match ls with
  | .done r _ => r
  | .running _ => .plain 0 false

def isDone (ls : LoopState) : Bool :=
  match ls with
  | .done _ _ => true
  | .running _ => false

theorem isDone_eq (ls : LoopState) (h : isDone ls = true) :
    ls = .done (lsResOr ls) (lsState ls) := by
  cases ls with
  | running st => simp [isDone] at h
  | done r st => rfl

/-- The target-closure invariant: every target set stays inside the run's
initial device set `S`, which the `Start` target set fully holds. -/
def c3Core (ctx : Ctx) (S : Finset String) (st : EngineState) : Prop :=
  (∀ nm, st.targets nm ⊆ S) ∧ S ⊆ st.targets ctx.startS.name

def c3Inv (ctx : Ctx) (S : Finset String) : LoopState → Prop
  | .running st => c3Core ctx S st
  | .done r st => c3Core ctx S st ∧ r = finalResults ctx st

theorem c3_advance (ctx : Ctx)
    (hstop : ∀ t, ctx.run.stop t = false)
    (hrunner : ∀ t call rr, ctx.runner t call = some rr →
      summaryDevs rr.summary ⊆ startTargets ctx) :
    ∀ ls ls2, c3Inv ctx (startTargets ctx) ls → advance ctx ls = .ok ls2 →
      c3Inv ctx (startTargets ctx) ls2 := by
  intro ls ls2 hP hadv
  cases ls with
  | done r st =>
    simp only [advance] at hadv
    injection hadv with h1
    rw [← h1]
    exact hP
  | running st =>
    have hC : c3Core ctx (startTargets ctx) st := hP
    simp only [advance] at hadv
    rcases jobStep_elim ctx st ls2 hadv with
      ⟨hpop, hls⟩ | ⟨e, rest, hpop, hstopc, hls⟩ | ⟨e, rest, hpop, hst, hmx, hls⟩ |
      ⟨e, rest, st2, hpop, hst, hcount, hskip, hpr, hls⟩ |
      ⟨e, rest, hpop, hst, hcount, hskip, hrun, hls⟩ |
      ⟨e, rest, r, st2, hpop, hst, hcount, hskip, hrun, hpr, hls⟩
    · subst hls
      exact ⟨hC, rfl⟩
    · rw [hstop st.time] at hstopc
      exact absurd hstopc (by simp)
    · subst hls
      exact hC
    · subst hls
      have hD : summaryDevs (skipResults ctx (dispatchState (postPopState st rest)
          e.service) e.service).summary ⊆ startTargets ctx := by
        by_cases hbd : inBfsOrDevice ctx = true
        · have hsm : (skipResults ctx (dispatchState (postPopState st rest) e.service)
              e.service).summary =
              some ⟨.set ((dispatchState (postPopState st rest) e.service).targets
                e.service.name), .list []⟩ := by
            simp [skipResults, hbd]
          rw [hsm]
          intro z hz
          rcases Finset.mem_union.1 hz with h1 | h1
          · exact hC.1 e.service.name h1
          · simp [DevColl.toDevSet] at h1
        · have hsm : (skipResults ctx (dispatchState (postPopState st rest) e.service)
              e.service).summary = none := by
            simp [skipResults, hbd]
          rw [hsm]
          intro z hz
          simp [summaryDevs] at hz
      have facts := processResults_stepFacts ctx e.service _ _ st2
        (startTargets ctx) hD hpr
      show c3Core ctx (startTargets ctx) st2
      constructor
      · intro nm z hz
        rcases Finset.mem_union.1 (facts.upper nm hz) with h1 | h1
        · exact hC.1 nm h1
        · exact h1
      · exact subset_trans hC.2 (facts.mono ctx.startS.name)
    · subst hls
      exact hC
    · subst hls
      have hD : summaryDevs (runnerDict r).summary ⊆ startTargets ctx :=
        hrunner st.time _ r hrun
      have facts := processResults_stepFacts ctx e.service _ _ st2
        (startTargets ctx) hD hpr
      show c3Core ctx (startTargets ctx) st2
      constructor
      · intro nm z hz
        rcases Finset.mem_union.1 (facts.upper nm hz) with h1 | h1
        · exact hC.1 nm h1
        · exact h1
      · exact subset_trans hC.2 (facts.mono ctx.startS.name)

/-- C3 (amended): for a terminating run in `tracking_bfs or device` mode
(`run_method == "per_service_with_workflow_targets"` or a per-device
`device` argument; NOT the plain `per_service_with_service_targets`
mode), seeded by default (`run.start_services` empty), never stopped,
and whose Runner summaries only ever mention devices of the run's
initial device set: `targets[End.name] ⊆ targets[Start.name]`, the
returned dict is `{payload, success: not failed, summary: {success:
targets[End.name], failure: targets[Start.name] - targets[End.name]}}`,
and `success` holds iff `targets[End.name] == targets[Start.name]`. -/
theorem c3_final_summary (ctx : Ctx) (st0 st : EngineState) (n : Nat) (r : JobResults)
    (hmode : inBfsOrDevice ctx = true)
    (hseed : ctx.run.start_services = [])
    (hstop : ∀ t, ctx.run.stop t = false)
    (hrunner : ∀ t call rr, ctx.runner t call = some rr →
      summaryDevs rr.summary ⊆ startTargets ctx)
    (hinit : initState ctx = .ok st0)
    (hrun : iterateLoop ctx n (.running st0) = .ok (.done r st)) :
    st.targets ctx.endS.name ⊆ st.targets ctx.startS.name ∧
    r = .bfs ctx.run.payload
      (decide (st.targets ctx.startS.name \ st.targets ctx.endS.name = ∅))
      (st.targets ctx.endS.name)
      (st.targets ctx.startS.name \ st.targets ctx.endS.name) ∧
    ((st.targets ctx.startS.name \ st.targets ctx.endS.name = ∅) ↔
      st.targets ctx.endS.name = st.targets ctx.startS.name) := by
  have hfold := seedFold_facts ctx (seedServices ctx.run ctx.startS) emptyState st0
    (by unfold initState at hinit; exact hinit)
  have hsv : seedServices ctx.run ctx.startS = [ctx.startS] := by
    simp [seedServices, hseed]
  have hP0 : c3Inv ctx (startTargets ctx) (.running st0) := by
    show c3Core ctx (startTargets ctx) st0
    constructor
    · intro nm z hz
      have hup := hfold.2.2.2.2.2.2.2.2.1 nm hz
      rcases Finset.mem_union.1 hup with h1 | h1
      · simp [emptyState] at h1
      · exact h1
    · apply hfold.2.2.2.2.2.2.2.2.2.2
      rw [hsv]
      exact List.mem_cons_self _ _
  have hP := iterateLoop_preserves ctx (c3Inv ctx (startTargets ctx))
    (c3_advance ctx hstop hrunner) n _ _ hP0 hrun
  have hD : c3Core ctx (startTargets ctx) st ∧ r = finalResults ctx st := hP
  obtain ⟨⟨hup, hlow⟩, hres⟩ := hD
  have hsub : st.targets ctx.endS.name ⊆ st.targets ctx.startS.name :=
    subset_trans (hup ctx.endS.name) hlow
  refine ⟨hsub, ?_, ?_⟩
  · rw [hres]
    unfold finalResults
    rw [if_pos hmode]
  · constructor
    · intro hdiff
      exact Finset.Subset.antisymm hsub (Finset.sdiff_eq_empty_iff_subset.1 hdiff)
    · intro heq
      rw [heq]
      simp

def c3wCtx : Ctx :=
  { wfName := "W",
    edges := [⟨20, "success", 1, wM, "W"⟩, ⟨23, "success", 5, wEnd, "W"⟩],
    startS := wStart, endS := wEnd,
    run := baseRun "per_service_with_workflow_targets" ["d1", "d2"],
    device := none,
    runner := fun _ _ => some ⟨true, some ⟨.list ["d1", "d2"], .list []⟩⟩ }

def c3wSt : EngineState := okOr (initState c3wCtx)

def c3wLs : LoopState := lsOr (iterateLoop c3wCtx 6 (.running c3wSt))

theorem c3_final_summary_witness :
    (lsState c3wLs).targets wEnd.name ⊆ (lsState c3wLs).targets wStart.name ∧
    lsResOr c3wLs = .bfs 0
      (decide ((lsState c3wLs).targets wStart.name \ (lsState c3wLs).targets wEnd.name = ∅))
      ((lsState c3wLs).targets wEnd.name)
      ((lsState c3wLs).targets wStart.name \ (lsState c3wLs).targets wEnd.name) ∧
    (lsState c3wLs).targets wEnd.name = {"d1", "d2"} := by
  have hdone : iterateLoop c3wCtx 6 (.running c3wSt) =
      .ok (.done (lsResOr c3wLs) (lsState c3wLs)) := by
    rw [lsOr_eq (iterateLoop c3wCtx 6 (.running c3wSt)) (by decide!)]
    exact congrArg Except.ok (isDone_eq c3wLs (by decide!))
  have happ := c3_final_summary c3wCtx c3wSt (lsState c3wLs) 6 (lsResOr c3wLs)
    rfl rfl (fun _ => rfl)
    (by
      intro t call rr h
      injection h with h1
      rw [← h1]
      decide)
    (okOr_eq _ (by decide!)) hdone
  exact ⟨happ.1, happ.2.1, by decide!⟩

def c3cCtx : Ctx :=
  { wfName := "W", edges := [], startS := wStart, endS := wEnd,
    run := baseRun "per_service_with_service_targets" ["d1"], device := none,
    runner := fun _ _ => none }

/-- C3 counterexample: a terminating run in the
`per_service_with_service_targets` run method — a "BFS mode" in the
specification's sense — takes the `else` branch of the final block
(`tracking_bfs` is false and there is no device) and returns the plain
`{payload, success: end in visited}` dict with no summary at all,
refuting the claimed shape of the returned value. -/
theorem c3_service_targets_counterexample :
    resultOf (jobRun c3cCtx 4) = some (.ok (.plain 0 false)) ∧
    (JobResults.plain 0 false).isBfs = false :=
  ⟨by decide, rfl⟩

/-! ## Claim C1 -/

/-- In `tracking_bfs or device` mode, each `(successor, edge)` pair
processed by the inner neighbor loop gets its target-union and its
edge-counter increment, and both survive to the loop's final state. -/
theorem processNeighbors_hit (ctx : Ctx) (summary : Option Summary) (et : String)
    (v : DevColl) (hmode : inBfsOrDevice ctx = true)
    (hv : summaryIndex summary et = .ok v) :
    ∀ (lst : List (Service × Edge)) (st st2 : EngineState),
      processNeighbors ctx summary et lst st = .ok st2 →
      ∀ p ∈ lst,
        st.targets p.1.name ∪ v.toDevSet ⊆ st2.targets p.1.name ∧
        (⟨edgeKey p.2, .int v.len, "increment"⟩ : StateWrite) ∈ st2.writes := by
  intro lst
  induction lst with
  | nil =>
    intro st st2 hok p hp
    exact absurd hp (by simp)
  | cons q rest ih =>
    intro st st2 hok p hp
    obtain ⟨succ, edge⟩ := q
    simp only [processNeighbors] at hok
    cases hstep : neighborStep ctx summary et succ edge st with
    | error err =>
      rw [hstep] at hok
      exact absurd hok (by simp)
    | ok st1 =>
      rw [hstep] at hok
      obtain ⟨entry, hent, hheap, hnor, hvis, htr2, hrc, htime, hmono, hupper, hwex⟩ :=
        neighborStep_ok_elim ctx summary et succ edge st st1 hstep
      rcases List.mem_cons.1 hp with hph | hpt
      · subst hph
        rw [neighborStep_eq_bfs ctx summary et succ edge st v entry hmode hv hent] at hstep
        injection hstep with h1
        have hfacts := processNeighbors_facts ctx summary et rest st1 st2 hok
        constructor
        · refine subset_trans ?_ (hfacts.1 succ.name)
          rw [← h1]
          dsimp only
          rw [Function.update_same]
        · apply hfacts.2.2.1
          rw [← h1]
          dsimp only
          exact List.mem_append.2 (Or.inr (by simp))
      · have hres := ih st1 st2 hok p hpt
        refine ⟨subset_trans ?_ hres.1, hres.2⟩
        exact Finset.union_subset_union (hmono p.1.name) subset_rfl

/-- C1 (amended): only the `per_service_with_workflow_targets` run
method sets `tracking_bfs`, and only `tracking_bfs or device` runs
propagate device sets (`per_service_with_service_targets` takes the
plain path).  In a tracking run, after a dispatched service's results
are processed, for each edge type `et` whose `summary[et]` is non-empty
and each outgoing edge of that subtype, `targets[successor.name]` has
been unioned with `summary[et]` and the state write
`edges/<edge.id> += len(summary[et])` has been recorded. -/
theorem c1_tracking_propagation (ctx : Ctx) (s : Service) (results : ResultsDict)
    (st st2 : EngineState) (et : String) (v : DevColl)
    (ht : trackingBfs ctx.run = true)
    (hok : processResults ctx s results st = .ok st2)
    (het : et = "success" ∨ et = "failure")
    (hv : summaryIndex results.summary et = .ok v)
    (hne : v.isEmpty = false) :
    ∀ p ∈ neighbors ctx s et,
      st.targets p.1.name ∪ v.toDevSet ⊆ st2.targets p.1.name ∧
      (⟨edgeKey p.2, .int v.len, "increment"⟩ : StateWrite) ∈ st2.writes := by
  intro p hp
  have hmode : inBfsOrDevice ctx = true := by simp [inBfsOrDevice, ht]
  obtain ⟨stA, hA, hB⟩ := processResults_elim ctx s results st st2 hok
  have hpg : progressState ctx results st = st := by
    simp [progressState, ht]
  rcases het with he1 | he1
  · subst he1
    rw [hpg, processEdgeType_tracking_go ctx s _ results.summary "success" st v
      ht hv hne] at hA
    have hit := processNeighbors_hit ctx results.summary "success" v hmode hv
      (neighbors ctx s "success") st stA hA p hp
    have factsB := processEdgeType_stepFacts ctx s (resultStatus results) results.summary
      "failure" stA st2 (summaryDevs results.summary) subset_rfl hB
    exact ⟨subset_trans hit.1 (factsB.mono p.1.name), factsB.wmono _ hit.2⟩
  · subst he1
    have factsA := processEdgeType_stepFacts ctx s (resultStatus results) results.summary
      "success" (progressState ctx results st) stA (summaryDevs results.summary)
      subset_rfl hA
    rw [processEdgeType_tracking_go ctx s _ results.summary "failure" stA v
      ht hv hne] at hB
    have hit := processNeighbors_hit ctx results.summary "failure" v hmode hv
      (neighbors ctx s "failure") stA st2 hB p hp
    refine ⟨subset_trans ?_ hit.1, hit.2⟩
    refine Finset.union_subset_union ?_ subset_rfl
    have hm := factsA.mono p.1.name
    rw [hpg] at hm
    exact hm

def c1wCtx : Ctx :=
  { wfName := "W", edges := [⟨21, "success", 5, wA, "W"⟩],
    startS := wStart, endS := wEnd,
    run := baseRun "per_service_with_workflow_targets" ["d1", "d2"],
    device := none, runner := fun _ _ => none }

def c1wSt2 : EngineState :=
  okOr (processResults c1wCtx wM ⟨true, none, some ⟨.list ["d1"], .list ["d2"]⟩⟩ emptyState)

theorem c1_tracking_propagation_witness :
    ((wA, (⟨21, "success", 5, wA, "W"⟩ : Edge)) ∈ neighbors c1wCtx wM "success") ∧
    (emptyState.targets wA.name ∪ (DevColl.list ["d1"]).toDevSet ⊆
        c1wSt2.targets wA.name ∧
      (⟨edgeKey ⟨21, "success", 5, wA, "W"⟩, .int (DevColl.list ["d1"]).len,
        "increment"⟩ : StateWrite) ∈ c1wSt2.writes) :=
  ⟨by decide,
    c1_tracking_propagation c1wCtx wM ⟨true, none, some ⟨.list ["d1"], .list ["d2"]⟩⟩
      emptyState c1wSt2 "success" (.list ["d1"]) rfl (okOr_eq _ (by decide!))
      (Or.inl rfl) rfl rfl (wA, ⟨21, "success", 5, wA, "W"⟩) (by decide)⟩

def wF : Service := ⟨6, "F", "F", 1, 1, [], "True"⟩

def c1cCtx : Ctx :=
  { wfName := "W",
    edges := [⟨20, "success", 1, wM, "W"⟩, ⟨21, "success", 5, wA, "W"⟩,
      ⟨22, "failure", 5, wF, "W"⟩],
    startS := wStart, endS := wEnd,
    run := baseRun "per_service_with_service_targets" ["d1", "d2"],
    device := none,
    runner := fun _ _ => some ⟨true, some ⟨.list ["d1"], .list ["d2"]⟩⟩ }

/-- C1 counterexample: a `per_service_with_service_targets` run — a BFS
mode by the specification's glossary — does not propagate device sets:
although `M` completes with `summary = {success: [d1], failure: [d2]}`
and has a success edge 21 and a failure edge 22, the run's complete
write log holds only plain-mode `DONE` marks and progress counters; the
claimed increment write `edges/21 += 1` is never recorded (nor is
`edges/22` ever written, the failure edge not being taken at all). -/
theorem c1_service_targets_counterexample :
    writesOf (jobRun c1cCtx 6) =
      some [⟨"progress/service/success", .int 1, "increment"⟩,
        ⟨"edges/20", .str "DONE", "set"⟩,
        ⟨"progress/service/success", .int 1, "increment"⟩,
        ⟨"edges/21", .str "DONE", "set"⟩,
        ⟨"progress/service/success", .int 1, "increment"⟩] ∧
    (⟨"edges/21", .int 1, "increment"⟩ : StateWrite) ∉
      [(⟨"progress/service/success", .int 1, "increment"⟩ : StateWrite),
        ⟨"edges/20", .str "DONE", "set"⟩,
        ⟨"progress/service/success", .int 1, "increment"⟩,
        ⟨"edges/21", .str "DONE", "set"⟩,
        ⟨"progress/service/success", .int 1, "increment"⟩] :=
  ⟨by decide!, by decide⟩

end ENMS
